import Mathlib

/-! # acmepipe: the incremental patch engine

A shallow embedding of `src/acme/acmepipe/main.go`.

* A Go `[]byte` / `string` is a `List Char`, one `Char` per byte; the program only
  ever compares bytes with ASCII constants.
* A Go `int` is an `Int` that every arithmetic operation wraps to 64 bits.
* The acme window (`win`), the temporary files and the external diff process are
  an explicit environment: a record of operations over a state `σ`, each of which
  may fail.  The program is a state transformer over any such environment.
-/

namespace Acmepipe

/-- A byte string, as both Go `[]byte` and Go `string`. -/
abbrev Bytes := List Char

/-! ## Go `int` -/

/-- The smallest value of a 64-bit Go `int`. -/
def intMin : Int := -9223372036854775808

/-- The largest value of a 64-bit Go `int`. -/
def intMax : Int := 9223372036854775807

/-- Two-complement wrap-around of a mathematical integer to a 64-bit Go `int`. -/
def wrapInt (x : Int) : Int :=
  (x + 9223372036854775808) % 18446744073709551616 - 9223372036854775808

/-- The values a Go `int` can hold. -/
def IsInt (x : Int) : Prop := intMin ≤ x ∧ x ≤ intMax

instance (x : Int) : Decidable (IsInt x) := inferInstanceAs (Decidable (_ ∧ _))

/-- Go `x--` on an `int`. -/
def dec (x : Int) : Int := wrapInt (x - 1)

/-! ## `region` -/

/-- Go `text[a:b]` (for `a ≤ b ≤ len(text)`, which `regionBounds_le` establishes). -/
def slice (text : Bytes) (a b : Nat) : Bytes := (text.take b).drop a

/-- First loop of `region`:
`for ; i < len(text) && start > 0; i++ { if text[i] == '\n' { start--; end-- } }`.
The first argument is `text[i:]`; the result is the final `i` and `end`. -/
def scanStart : Bytes → Nat → Int → Int → Nat × Int
  | [], i, _, e => (i, e)
  | c :: cs, i, s, e =>
    if s > 0 then
      if c = '\n' then scanStart cs (i + 1) (dec s) (dec e) else scanStart cs (i + 1) s e
    else (i, e)

/-- Second loop of `region`:
`for ; i < len(text) && end > 0; i++ { if text[i] == '\n' { end-- } }`.
The first argument is `text[i:]`; the result is the final `i`. -/
def scanEnd : Bytes → Nat → Int → Nat
  | [], i, _ => i
  | c :: cs, i, e =>
    if e > 0 then
      if c = '\n' then scanEnd cs (i + 1) (dec e) else scanEnd cs (i + 1) e
    else i

/-- The pair `(startByte, endByte)` computed by `region`. -/
def regionBounds (text : Bytes) (start stop : Int) : Nat × Nat :=
  let s := dec start -- line numbers are 1-based
  let r := scanStart text 0 s stop
  let startByte := r.1
  let endByte := scanEnd (text.drop startByte) startByte r.2
  (startByte, endByte)

/-- Go `region(text, start, end)`: `text[startByte:endByte]`. -/
def region (text : Bytes) (start stop : Int) : Bytes :=
  slice text (regionBounds text start stop).1 (regionBounds text start stop).2

/-! ## Reference notions for lines (written from the specification) -/

/-- Number of `'\n'` bytes of a buffer. -/
def newlines (buf : Bytes) : Nat := buf.count '\n'

/-- Reference offset: the offset immediately after the `k`-th `'\n'` of `buf`;
`0` when `k = 0`, and `len(buf)` when `buf` has fewer than `k` newlines. -/
def offsetAfter : Bytes → Nat → Nat
  | _, 0 => 0
  | [], _ + 1 => 0
  | c :: cs, k + 1 => if c = '\n' then offsetAfter cs k + 1 else offsetAfter cs (k + 1) + 1

/-- Reference line splitting: the lines of a buffer, each with its trailing `'\n'`
when it has one (only the last line can lack it). -/
def linesOf : Bytes → List Bytes
  | [] => []
  | c :: cs =>
    if c = '\n' then [c] :: linesOf cs
    else match linesOf cs with
      | [] => [[c]]
      | l :: ls => (c :: l) :: ls

/-- Total line count of a buffer. -/
def lineCount (buf : Bytes) : Nat := (linesOf buf).length

/-! ## Library functions of Go used by the program -/

/-- Go `strings.IndexAny(s, chars)` for ASCII `chars`: index of the first byte of `s`
that occurs in `chars`; `none` stands for the result `-1`. -/
def indexAny : Bytes → Bytes → Option Nat
  | [], _ => none
  | c :: cs, chars => if c ∈ chars then some 0 else (indexAny cs chars).map (· + 1)

/-- Go `strings.IndexByte(s, c)`; `none` stands for the result `-1`. -/
def indexByte : Bytes → Char → Option Nat
  | [], _ => none
  | c :: cs, b => if c = b then some 0 else (indexByte cs b).map (· + 1)

/-- Go `strings.Split(s, "\n")`: the pieces between the newlines, one more than
there are newlines. -/
def splitNewline : Bytes → List Bytes
  | [] => [[]]
  | c :: cs =>
    if c = '\n' then [] :: splitNewline cs
    else match splitNewline cs with
      | [] => [[c]]
      | l :: ls => (c :: l) :: ls

/-- The digit loop of `strconv.Atoi`: `ch -= '0'; if ch > 9 { error }; n = n*10 + ch`. -/
def parseDigits : Bytes → Nat → Option Nat
  | [], n => some n
  | c :: cs, n =>
    if 48 ≤ c.toNat ∧ c.toNat ≤ 57 then parseDigits cs (n * 10 + (c.toNat - 48)) else none

/-- Go `strconv.Atoi`: an optional sign and at least one decimal digit; `none` is a
non-nil error (syntax error, or a value outside the range of `int`). -/
def atoi (s : Bytes) : Option Int :=
  match s with
  | [] => none
  | c :: cs =>
    let neg := decide (c = '-')
    let ds := if c = '-' ∨ c = '+' then cs else s
    match ds with
    | [] => none
    | _ :: _ =>
      match parseDigits ds 0 with
      | none => none
      | some n =>
        let v : Int := if neg then -(n : Int) else (n : Int)
        if IsInt v then some v else none

/-! ## The hunk parser -/

/-- Go `span(text)`. -/
def span (text : Bytes) : Int × Int :=
  match indexByte text ',' with
  | none =>
    match atoi text with
    | none => (0, 0)
    | some n => (n, n)
  | some i =>
    match atoi (text.take i), atoi (text.drop (i + 1)) with
    | some x, some y => (x, y)
    | _, _ => (0, 0)

/-! ## The environment: acme window, temporary files, diff process -/

/-- A Go `error` value. -/
abbrev Err := String

/-- The address written by `win.Addr(format, args...)`, one constructor per format
string that the program uses. -/
inductive Address where
  /-- Format `","`. -/
  | whole
  /-- Format `"%d,%d"`. -/
  | lines (n1 n2 : Int)
  /-- Format `"%d+#0"`. -/
  | after (n1 : Int)
  /-- Format `"#%d,#%d"`. -/
  | chars (q0 q1 : Int)
  deriving DecidableEq, Repr

/-- The text of an address, as `fmt.Sprintf` renders it. -/
def Address.format : Address → String
  | .whole => ","
  | .lines n1 n2 => toString n1 ++ "," ++ toString n2
  | .after n1 => toString n1 ++ "+#0"
  | .chars q0 q1 => "#" ++ toString q0 ++ ",#" ++ toString q1

/-- The operations of the acme window `win` (and the process log) that the
program calls; each acts on a state `σ` and may return an error. -/
structure Win (σ : Type) where
  /-- Go `win.Ctl(text)`. -/
  ctl : String → σ → Option Err × σ
  /-- Go `win.Addr(format, args...)`. -/
  addr : Address → σ → Option Err × σ
  /-- Go `win.Write("data", buf)`. -/
  writeData : Bytes → σ → Option Err × σ
  /-- Go `win.Write("errors", buf)`. -/
  writeErrs : Bytes → σ → Option Err × σ
  /-- Go `win.ReadAddr()`. -/
  readAddr : σ → Except Err (Int × Int) × σ
  /-- Go `log.Println(args...)`. -/
  logPrintln : Bytes → σ → σ

/-- A temporary file handle. -/
abbrev File := Nat

/-- What `cmd.Run()` returns: `nil`, an `*exec.ExitError` (the process ran and exited
with a non-zero status), or an error of another type (the process could not be run). -/
inductive RunError where
  | none
  | exitError (status : Int)
  | other (e : Err)
  deriving DecidableEq, Repr

/-- The result of running `9 diff oldFile newFile`. -/
structure DiffRun where
  stdout : Bytes
  stderr : Bytes
  err : RunError

/-- The window together with the operating system services used by `patchOutput`. -/
structure Sys (σ : Type) extends Win σ where
  /-- Go `tempfile(buf)`: create a temporary file holding `buf`. -/
  tempfile : Bytes → σ → Except Err File × σ
  /-- Running `exec.Command("9", "diff", oldFile.Name(), newFile.Name())`. -/
  runDiff : File → File → σ → DiffRun × σ

/-- How a Go function with result `error` ends when panics are possible. -/
inductive Outcome where
  | ok
  | failed (e : Err)
  | panicked
  deriving DecidableEq, Repr

/-- Go `if err := ...; err != nil { return err }` followed by the rest. -/
def andThen {σ : Type} (r : Option Err × σ) (k : σ → Option Err × σ) : Option Err × σ :=
  match r with
  | (some e, s) => (some e, s)
  | (none, s) => k s

/-! ## The program -/

/-- Go `write(buf, format, args...)`. -/
def write {σ : Type} (W : Win σ) (buf : Bytes) (a : Address) (s : σ) : Option Err × σ :=
  andThen (W.addr a s) (W.writeData buf)

/-- Go `applyRegion(line, buf)`. -/
def applyRegion {σ : Type} (W : Win σ) (line buf : Bytes) (s : σ) : Option Err × σ :=
  match line with
  | [] => (none, s) -- no change
  | c0 :: _ =>
    if c0 = '<' ∨ c0 = '-' ∨ c0 = '>' then (none, s) -- details
    else
      match indexAny line ['a', 'c', 'd'] with
      | none => (none, W.logPrintln ("cannot parse diff: ".toList ++ line) s)
      | some i =>
        let n12 := span (line.take i)
        let n34 := span (line.drop (i + 1))
        match line.get? i with
        | some 'a' => write W (region buf n34.1 n34.2) (Address.after n12.1) s
        | some 'c' => write W (region buf n34.1 n34.2) (Address.lines n12.1 n12.2) s
        | some 'd' => write W [] (Address.lines n12.1 n12.2) s
        | _ => (none, s)

/-- The loop of `apply`, over the lines in the order in which it visits them. -/
def applyLines {σ : Type} (W : Win σ) : List Bytes → Bytes → σ → Option Err × σ
  | [], _, s => (none, s)
  | line :: rest, buf, s => andThen (applyRegion W line buf s) (applyLines W rest buf)

/-- Go `apply(diff, buf)`; `mark` is the flag `-mark`. The loop runs from the last
line of `strings.Split(diff, "\n")` to the first. -/
def apply {σ : Type} (W : Win σ) (mark : Bool) (diff buf : Bytes) (s : σ) : Option Err × σ :=
  if diff.length = 0 then (none, s) -- no diff
  else
    andThen (if !mark then W.ctl "mark\nnomark" s else (none, s))
      (applyLines W (splitNewline diff).reverse buf)

/-- Go `writeErrors(buf)`. -/
def writeErrors {σ : Type} (W : Win σ) (buf : Bytes) (s : σ) : Option Err × σ :=
  if buf.length = 0 then (none, s) -- no errors
  else W.writeErrs buf s

/-- Go `writeOutput(old, new)`. -/
def writeOutput {σ : Type} (W : Win σ) (old new : Bytes) (s : σ) : Option Err × σ :=
  if new.length = 0 then (none, s) -- no output
  else if new = old then (none, s) -- no change
  else
    match W.readAddr s with -- make sure the address file is open
    | (.error e, s) => (some e, s)
    | (.ok _, s) =>
      andThen (W.ctl "addr=dot" s) fun s =>
        match W.readAddr s with
        | (.error e, s) => (some e, s)
        | (.ok q, s) =>
          andThen (W.addr Address.whole s) fun s =>
            andThen (W.writeData new s) fun s =>
              andThen (W.addr (Address.chars q.1 q.2) s) fun s =>
                W.ctl "dot=addr\nshow" s

/-- Go `patchOutput(old, new)`. The condition
`err != nil && err.(*exec.ExitError) == nil` panics in the type assertion when
`err` is not an `*exec.ExitError`, and is false when it is one. -/
def patchOutput {σ : Type} (S : Sys σ) (mark : Bool) (old new : Bytes) (s : σ) : Outcome × σ :=
  if new.length = 0 then (Outcome.ok, s) -- no output
  else
    match S.tempfile new s with
    | (.error e, s) => (Outcome.failed e, s)
    | (.ok newFile, s) =>
      match S.tempfile old s with
      | (.error e, s) => (Outcome.failed e, s)
      | (.ok oldFile, s) =>
        match S.runDiff oldFile newFile s with
        | (run, s) =>
          match run.err with
          | RunError.other _ => (Outcome.panicked, s)
          | _ => -- ignore exit status
            match writeErrors S.toWin run.stderr s with
            | (some e, s) => (Outcome.failed e, s)
            | (none, s) =>
              match apply S.toWin mark run.stdout new s with
              | (some e, s) => (Outcome.failed e, s)
              | (none, s) => (Outcome.ok, s)

/-! ## A recording environment -/

/-- One call made by the program to its environment. -/
inductive Event where
  | ctl (text : String)
  | addr (a : Address)
  | data (buf : Bytes)
  | errors (buf : Bytes)
  | readAddr
  | log (msg : Bytes)
  | tempfile (buf : Bytes)
  | diff (oldFile newFile : File)
  deriving DecidableEq, Repr

/-- The buffer operations: control directive, set-address, data write. -/
def Event.isBufferOp : Event → Bool
  | .ctl _ => true
  | .addr _ => true
  | .data _ => true
  | _ => false

/-- The control directives. -/
def Event.isCtl : Event → Bool
  | .ctl _ => true
  | _ => false

/-- A window in which every operation succeeds and is appended to a trace;
`q` is what `ReadAddr` answers. -/
def recWin (q : Int × Int) : Win (List Event) where
  ctl t s := (none, s ++ [Event.ctl t])
  addr a s := (none, s ++ [Event.addr a])
  writeData b s := (none, s ++ [Event.data b])
  writeErrs b s := (none, s ++ [Event.errors b])
  readAddr s := (.ok q, s ++ [Event.readAddr])
  logPrintln m s := s ++ [Event.log m]

/-- A recording system: temporary files get the handles `0, 1, ...` and the diff
process answers `run`. -/
def recSys (q : Int × Int) (run : DiffRun) : Sys (List Event) where
  toWin := recWin q
  tempfile b s := (.ok (s.countP fun e => e matches Event.tempfile _), s ++ [Event.tempfile b])
  runDiff o n s := (run, s ++ [Event.diff o n])

/-! ## A model of the addressable buffer -/

/-- Modelled from the spec: the state of the external buffer behind the BufferPort,
its contents, the current address `q0, q1` (byte offsets), and the side channel
for diagnostics. -/
structure Buffer where
  content : Bytes
  q0 : Nat
  q1 : Nat
  diagnostics : Bytes
  deriving DecidableEq, Repr

/-- Modelled from the spec: the byte range selected by an address in a buffer.
`n1,n2` is the byte range of lines `n1` to `n2`, from the start of line `n1` to
just after the newline of line `n2`; `n+#0` is the zero-width point just after
line `n`; line `0` is the empty range at the start. An address that is out of
order, negative, or more than one line past the last line is rejected. -/
def resolve (content : Bytes) : Address → Option (Nat × Nat)
  | .whole => some (0, content.length)
  | .lines n1 n2 =>
    if 0 ≤ n1 ∧ n1 ≤ n2 ∧ n2 ≤ lineCount content + 1 then
      some (offsetAfter content (n1.toNat - 1), offsetAfter content n2.toNat)
    else none
  | .after n1 =>
    if 0 ≤ n1 ∧ n1 ≤ lineCount content + 1 then
      some (offsetAfter content n1.toNat, offsetAfter content n1.toNat)
    else none
  | .chars q0 q1 =>
    if 0 ≤ q0 ∧ q0 ≤ q1 ∧ q1 ≤ content.length then some (q0.toNat, q1.toNat) else none

/-- Modelled from the spec: the BufferPort over the model buffer. Setting an
address selects a byte range (or fails), a data write replaces what the address
spans, control directives leave the contents alone. -/
def bufferWin : Win Buffer where
  ctl _ b := (none, b)
  addr a b :=
    match resolve b.content a with
    | none => (some "address out of range", b)
    | some q => (none, { b with q0 := q.1, q1 := q.2 })
  writeData d b :=
    (none, { b with content := b.content.take b.q0 ++ d ++ b.content.drop b.q1,
                    q0 := b.q0 + d.length, q1 := b.q0 + d.length })
  writeErrs d b := (none, { b with diagnostics := b.diagnostics ++ d })
  readAddr b := (.ok (b.q0, b.q1), b)
  logPrintln m b := { b with diagnostics := b.diagnostics ++ m ++ ['\n'] }

/-- A model buffer that initially holds `old`. -/
def Buffer.holding (old : Bytes) : Buffer := ⟨old, 0, 0, []⟩

/-! ## Diff text in normal format -/

/-- A range of a hunk header: `N` or `N,M`. -/
inductive Range where
  | single (n : Nat)
  | pair (n m : Nat)
  deriving DecidableEq, Repr

/-- First line of a range. -/
def Range.lo : Range → Nat
  | .single n => n
  | .pair n _ => n

/-- Last line of a range (`N` means `N..N`). -/
def Range.hi : Range → Nat
  | .single n => n
  | .pair _ m => m

/-- The decimal text of a range. -/
def Range.render : Range → Bytes
  | .single n => (Nat.repr n).toList
  | .pair n m => (Nat.repr n).toList ++ ',' :: (Nat.repr m).toList

/-- The operation of a hunk. -/
inductive Op where
  | add
  | change
  | delete
  deriving DecidableEq, Repr

/-- The operation character of a hunk header. -/
def Op.char : Op → Char
  | .add => 'a'
  | .change => 'c'
  | .delete => 'd'

/-- An edit descriptor: old range, operation, new range. -/
structure Hunk where
  old : Range
  op : Op
  new : Range
  deriving DecidableEq, Repr

/-- The header line `<oldrange><op><newrange>` of a hunk. -/
def Hunk.header (h : Hunk) : Bytes := h.old.render ++ h.op.char :: h.new.render

/-- All four line numbers of the hunk fit a Go `int`. -/
def Hunk.Fits (h : Hunk) : Prop :=
  (h.old.lo : Int) ≤ intMax ∧ (h.old.hi : Int) ≤ intMax ∧
  (h.new.lo : Int) ≤ intMax ∧ (h.new.hi : Int) ≤ intMax

instance (h : Hunk) : Decidable h.Fits := inferInstanceAs (Decidable (_ ∧ _))

/-- The address that the hunk is written at: `oldStart+#0` for add, `oldStart,oldEnd`
for change and delete. -/
def Hunk.address (h : Hunk) : Address :=
  match h.op with
  | .add => Address.after h.old.lo
  | _ => Address.lines h.old.lo h.old.hi

/-- The data that the hunk writes: the new lines `newStart..newEnd` for add and
change, nothing for delete. -/
def Hunk.data (new : Bytes) (h : Hunk) : Bytes :=
  match h.op with
  | .delete => []
  | _ => region new h.new.lo h.new.hi

/-- A content line of a diff: it starts with `<`, `-` or `>` and holds no newline. -/
def IsDetail (l : Bytes) : Prop :=
  (l.head? = some '<' ∨ l.head? = some '-' ∨ l.head? = some '>') ∧ '\n' ∉ l

instance (l : Bytes) : Decidable (IsDetail l) := inferInstanceAs (Decidable (_ ∧ _))

/-- A hunk as it stands in the diff text: the header and its content lines. -/
structure HunkText where
  hunk : Hunk
  details : List Bytes

/-- The lines of a hunk in a diff text. -/
def HunkText.lines (t : HunkText) : List Bytes := t.hunk.header :: t.details

/-- The diff text: the lines of the hunks in order, each ended by a newline. -/
def diffText (ts : List HunkText) : Bytes :=
  ((ts.map HunkText.lines).flatten.map fun l => l ++ ['\n']).flatten

/-! ## Reference semantics of a diff (written from the specification) -/

/-- Where a hunk starts in old-line terms. -/
def Hunk.oldStart (h : Hunk) : Nat := h.old.lo

/-- Where a hunk ends in old-line terms: an add is the point after line `oldStart`. -/
def Hunk.oldEnd (h : Hunk) : Nat :=
  match h.op with
  | .add => h.old.lo
  | _ => h.old.hi

/-- A single hunk has a sensible old range: change and delete cover the lines
`oldStart..oldEnd` with `1 ≤ oldStart ≤ oldEnd`. -/
def Hunk.Sensible (h : Hunk) : Prop :=
  h.op = Op.add ∨ (1 ≤ h.old.lo ∧ h.old.lo ≤ h.old.hi)

instance (h : Hunk) : Decidable h.Sensible := inferInstanceAs (Decidable (_ ∨ _))

/-- The hunks sit at strictly increasing, non-overlapping old-line positions, the
first one at line `lo` or later: each hunk starts after the end of the one before. -/
def AscendingFrom : Nat → List Hunk → Prop
  | _, [] => True
  | lo, h :: hs => lo ≤ h.oldStart ∧ AscendingFrom (h.oldEnd + 1) hs

/-- Deciding `AscendingFrom`. -/
def decAscendingFrom : (lo : Nat) → (hs : List Hunk) → Decidable (AscendingFrom lo hs)
  | _, [] => isTrue trivial
  | lo, h :: hs =>
    have := decAscendingFrom (h.oldEnd + 1) hs
    inferInstanceAs (Decidable (lo ≤ h.oldStart ∧ AscendingFrom (h.oldEnd + 1) hs))

instance (lo : Nat) (hs : List Hunk) : Decidable (AscendingFrom lo hs) := decAscendingFrom lo hs

/-- The hunks are well-formed for `old`: their numbers fit an `int`, they sit at
strictly increasing, non-overlapping old-line positions, and these are lines of
`old`. -/
def WellPlaced (old : Bytes) (hs : List Hunk) : Prop :=
  (∀ h ∈ hs, h.Fits ∧ h.Sensible ∧ h.oldEnd ≤ lineCount old) ∧ AscendingFrom 0 hs

instance (old : Bytes) (hs : List Hunk) : Decidable (WellPlaced old hs) :=
  inferInstanceAs (Decidable (_ ∧ _))

/-- One replacement against the original buffer: the bytes `q0..q1` become `data`. -/
structure Edit where
  q0 : Nat
  q1 : Nat
  data : Bytes
  deriving DecidableEq, Repr

/-- The replacement a hunk stands for, addressed against the original `old`:
the byte range of old lines `oldStart..oldEnd` for change and delete, the point
after old line `oldStart` for add. -/
def Hunk.edit (old new : Bytes) (h : Hunk) : Edit :=
  match h.op with
  | .add => ⟨offsetAfter old h.old.lo, offsetAfter old h.old.lo, region new h.new.lo h.new.hi⟩
  | .change =>
    ⟨offsetAfter old (h.old.lo - 1), offsetAfter old h.old.hi, region new h.new.lo h.new.hi⟩
  | .delete => ⟨offsetAfter old (h.old.lo - 1), offsetAfter old h.old.hi, []⟩

/-- Carry out ascending replacements against the unmodified `old`, having copied
`old` up to offset `pos`. -/
def spliceFrom (old : Bytes) : Nat → List Edit → Bytes
  | pos, [] => old.drop pos
  | pos, e :: es => (old.take e.q0).drop pos ++ e.data ++ spliceFrom old e.q1 es

/-- Replace simultaneously, against the original unmodified `old`, each hunk's old
line range by its new lines. -/
def simultaneous (old new : Bytes) (hs : List Hunk) : Bytes :=
  spliceFrom old 0 (hs.map (Hunk.edit old new))

/-- The lines `lo..hi` (1-based, inclusive) of a list of lines. -/
def selLines (ls : List Bytes) (lo hi : Nat) : List Bytes := (ls.take hi).drop (lo - 1)

/-- What a normal-format diff means on lines: starting after old line `i`, copy the
old lines up to each hunk and put the hunk's new lines in place of its old lines. -/
def patchLines (oldLines newLines : List Bytes) : Nat → List Hunk → List Bytes
  | i, [] => oldLines.drop i
  | i, h :: hs =>
    match h.op with
    | .add =>
      (oldLines.take h.old.lo).drop i ++ selLines newLines h.new.lo h.new.hi ++
        patchLines oldLines newLines h.old.lo hs
    | .change =>
      (oldLines.take (h.old.lo - 1)).drop i ++ selLines newLines h.new.lo h.new.hi ++
        patchLines oldLines newLines h.old.hi hs
    | .delete =>
      (oldLines.take (h.old.lo - 1)).drop i ++ patchLines oldLines newLines h.old.hi hs

/-- The hunks are a correct line diff of `old` against `new`: they are well placed
in `old`, and patching the lines of `old` with them gives the lines of `new`. -/
def CorrectDiff (old new : Bytes) (hs : List Hunk) : Prop :=
  WellPlaced old hs ∧ patchLines (linesOf old) (linesOf new) 0 hs = linesOf new

instance (old new : Bytes) (hs : List Hunk) : Decidable (CorrectDiff old new hs) :=
  inferInstanceAs (Decidable (_ ∧ _))


/-! ## Auxiliary notions for the proofs -/

/-- The bytes from 0 to 9 in ASCII. -/
def IsDigit (c : Char) : Prop := 48 ≤ c.toNat ∧ c.toNat ≤ 57

/-- The writes of a list of hunks, in the order of the list: for each hunk set its
address and write its data, stopping at the first error. -/
def writeHunks {σ : Type} (W : Win σ) (new : Bytes) : List Hunk → σ → Option Err × σ
  | [], s => (none, s)
  | h :: hs, s => andThen (write W (h.data new) h.address s) (writeHunks W new hs)

/-- The content lines of the hunks are content lines. -/
def DetailsOk (ts : List HunkText) : Prop := ∀ t ∈ ts, ∀ d ∈ t.details, IsDetail d

instance (ts : List HunkText) : Decidable (DetailsOk ts) :=
  inferInstanceAs (Decidable (∀ t ∈ ts, ∀ d ∈ t.details, IsDetail d))

/-- The offset up to which a buffer patched by the edits `es` is still the original:
the start of the first edit. -/
def frontier (old : Bytes) : List Edit → Nat
  | [] => old.length
  | e :: _ => e.q0

/-- The buffer `live` has the same line offsets as `old` up to line `n`, and line `n`
can be addressed in it. -/
def Agree (live old : Bytes) (n : Nat) : Prop :=
  (∀ k ≤ n, offsetAfter live k = offsetAfter old k) ∧ n ≤ lineCount live + 1

/-- The hunks sit at strictly increasing, non-overlapping positions that are lines of
`old`, with `1 ≤ oldStart ≤ oldEnd` for change and delete; nothing is asked of the
size of the numbers. -/
def PlacedInOld (old : Bytes) (hs : List Hunk) : Prop :=
  (∀ h ∈ hs, h.Sensible ∧ h.oldEnd ≤ lineCount old) ∧ AscendingFrom 0 hs

instance (old : Bytes) (hs : List Hunk) : Decidable (PlacedInOld old hs) :=
  inferInstanceAs (Decidable (_ ∧ _))

/-! ## Example data -/

/-- A hunk `1c1,9223372036854775808`, whose last number does not fit an `int`. -/
def hunkTooLarge : HunkText :=
  ⟨⟨Range.single 1, Op.change, Range.pair 1 9223372036854775808⟩,
    ["< a".toList, "---".toList, "> X".toList]⟩

/-- An old buffer of five lines. -/
def exOld : Bytes := "a\nb\nc\nd\ne\n".toList

/-- The new buffer for `exOld`: line 2 changed into two lines, line 4 deleted, a
line added after line 5. -/
def exNew : Bytes := "a\nX\nY\nc\ne\nf\n".toList

/-- A diff text of `exOld` against `exNew`, with three hunks `2c2,3`, `4d4`, `5a6`. -/
def exDiff : List HunkText :=
  [⟨⟨Range.single 2, Op.change, Range.pair 2 3⟩, ["< b".toList, "---".toList, "> X".toList,
      "> Y".toList]⟩,
   ⟨⟨Range.single 4, Op.delete, Range.single 4⟩, ["< d".toList]⟩,
   ⟨⟨Range.single 5, Op.add, Range.single 6⟩, ["> f".toList]⟩]

/-- The hunk `2c2`. -/
def hunk2c2 : HunkText := ⟨⟨Range.single 2, Op.change, Range.single 2⟩,
  ["< b".toList, "---".toList, "> X".toList]⟩

/-- The hunk `2a3`. -/
def hunk2a3 : HunkText := ⟨⟨Range.single 2, Op.add, Range.single 3⟩, ["> c".toList]⟩

/-- The hunk `2d1`. -/
def hunk2d1 : HunkText := ⟨⟨Range.single 2, Op.delete, Range.single 1⟩, ["< b".toList]⟩

/-! ## Facts about Go `int` arithmetic -/

theorem wrapInt_of_isInt {x : Int} (h : IsInt x) : wrapInt x = x := by
  unfold IsInt intMin intMax at h
  unfold wrapInt
  omega

theorem isInt_wrapInt (x : Int) : IsInt (wrapInt x) := by
  unfold IsInt intMin intMax wrapInt
  omega

theorem wrapInt_wrapInt_sub (x y : Int) : wrapInt (wrapInt x - y) = wrapInt (x - y) := by
  unfold wrapInt
  omega

theorem dec_of_pos {x : Int} (h : 0 < x) (hx : x ≤ intMax) : dec x = x - 1 := by
  unfold intMax at hx
  unfold dec wrapInt
  omega

theorem isInt_dec (x : Int) : IsInt (dec x) := isInt_wrapInt _

theorem isInt_natCast {n : Nat} (h : (n : Int) ≤ intMax) : IsInt (n : Int) := by
  unfold IsInt intMin
  omega

/-! ## Facts about the reference offsets -/

@[simp] theorem newlines_nil : newlines [] = 0 := rfl

@[simp] theorem newlines_cons_nl (cs : Bytes) : newlines ('\n' :: cs) = newlines cs + 1 := by
  simp [newlines]

theorem newlines_cons_ne {c : Char} (cs : Bytes) (h : c ≠ '\n') :
    newlines (c :: cs) = newlines cs := by
  simp [newlines, List.count_cons, h]

theorem newlines_append (a b : Bytes) : newlines (a ++ b) = newlines a + newlines b := by
  simp [newlines]

@[simp] theorem offsetAfter_zero (buf : Bytes) : offsetAfter buf 0 = 0 := by
  cases buf <;> rfl

@[simp] theorem offsetAfter_nil (k : Nat) : offsetAfter [] k = 0 := by
  cases k <;> rfl

theorem offsetAfter_le (buf : Bytes) (k : Nat) : offsetAfter buf k ≤ buf.length := by
  induction buf generalizing k with
  | nil => simp
  | cons c cs ih =>
    cases k with
    | zero => simp
    | succ k =>
      simp only [offsetAfter, List.length_cons]
      split
      · have := ih k; omega
      · have := ih (k + 1); omega

theorem offsetAfter_of_lt (buf : Bytes) (k : Nat) (h : newlines buf < k) :
    offsetAfter buf k = buf.length := by
  induction buf generalizing k with
  | nil => simp
  | cons c cs ih =>
    cases k with
    | zero => omega
    | succ k =>
      simp only [offsetAfter, List.length_cons]
      by_cases hc : c = '\n'
      · subst hc
        rw [newlines_cons_nl] at h
        simp [ih k (by omega)]
      · rw [newlines_cons_ne cs hc] at h
        simp [hc, ih (k + 1) h]

theorem offsetAfter_mono (buf : Bytes) {j k : Nat} (h : j ≤ k) :
    offsetAfter buf j ≤ offsetAfter buf k := by
  induction buf generalizing j k with
  | nil => simp
  | cons c cs ih =>
    cases j with
    | zero => simp
    | succ j =>
      cases k with
      | zero => omega
      | succ k =>
        simp only [offsetAfter]
        split
        · have := ih (j := j) (k := k) (by omega); omega
        · have := ih (j := j + 1) (k := k + 1) (by omega); omega

/-- Offsets add up: the `(j+k)`-th newline is the `k`-th newline after the `j`-th. -/
theorem offsetAfter_add (buf : Bytes) (j k : Nat) (h : j ≤ newlines buf) :
    offsetAfter buf (j + k) =
      offsetAfter buf j + offsetAfter (buf.drop (offsetAfter buf j)) k := by
  induction buf generalizing j with
  | nil => simp
  | cons c cs ih =>
    cases j with
    | zero => simp
    | succ j =>
      have e : j + 1 + k = (j + k) + 1 := by omega
      rw [e]
      simp only [offsetAfter]
      by_cases hc : c = '\n'
      · subst hc
        rw [newlines_cons_nl] at h
        simp only [if_true, List.drop_succ_cons]
        rw [ih j (by omega)]; omega
      · rw [newlines_cons_ne cs hc] at h
        simp only [hc, if_false, List.drop_succ_cons]
        have := ih (j + 1) h
        rw [e] at this
        rw [this]; omega

/-- The part of a buffer up to the `k`-th newline holds `k` newlines, if there are
that many. -/
theorem newlines_take_offsetAfter (buf : Bytes) (k : Nat) (h : k ≤ newlines buf) :
    newlines (buf.take (offsetAfter buf k)) = k := by
  induction buf generalizing k with
  | nil => simp at h; subst h; simp
  | cons c cs ih =>
    cases k with
    | zero => simp
    | succ k =>
      simp only [offsetAfter]
      by_cases hc : c = '\n'
      · subst hc
        rw [newlines_cons_nl] at h
        simp only [if_true, List.take_succ_cons, newlines_cons_nl]
        rw [ih k (by omega)]
      · rw [newlines_cons_ne cs hc] at h
        simp only [hc, if_false, List.take_succ_cons]
        rw [newlines_cons_ne _ hc, ih (k + 1) h]

/-- The offset of the `k`-th newline only depends on a part of the buffer that
holds `k` newlines. -/
theorem offsetAfter_append (a b : Bytes) (k : Nat) (h : k ≤ newlines a) :
    offsetAfter (a ++ b) k = offsetAfter a k := by
  induction a generalizing k with
  | nil => simp at h; subst h; simp
  | cons c cs ih =>
    cases k with
    | zero => simp
    | succ k =>
      simp only [List.cons_append, offsetAfter]
      by_cases hc : c = '\n'
      · subst hc
        rw [newlines_cons_nl] at h
        simp only [if_true]
        exact congrArg (· + 1) (ih k (by omega))
      · rw [newlines_cons_ne cs hc] at h
        simp only [hc, if_false]
        exact congrArg (· + 1) (ih (k + 1) h)

/-! ## The loops of `region` -/

theorem scanStart_of_nonpos (text : Bytes) (i : Nat) (s e : Int) (h : s ≤ 0) :
    scanStart text i s e = (i, e) := by
  cases text with
  | nil => rfl
  | cons c cs => simp [scanStart, not_lt.mpr h]

/-- The first loop stops just after the `k`-th newline, having decremented `end`
once per newline passed. -/
theorem scanStart_eq (text : Bytes) (i k : Nat) (e : Int) (hk : (k : Int) ≤ intMax)
    (he : IsInt e) :
    scanStart text i k e =
      (i + offsetAfter text k, wrapInt (e - (min k (newlines text) : Nat))) := by
  induction text generalizing i k e with
  | nil => simp [scanStart, wrapInt_of_isInt he]
  | cons c cs ih =>
    cases k with
    | zero => simp [scanStart, wrapInt_of_isInt he]
    | succ k =>
      have hpos : (0 : Int) < ((k + 1 : Nat) : Int) := by omega
      have hdec : dec ((k + 1 : Nat) : Int) = (k : Int) := by
        rw [dec_of_pos hpos hk]; omega
      have hk2 : (k : Int) ≤ intMax := by unfold intMax at *; omega
      by_cases hc : c = '\n'
      · subst hc
        simp only [scanStart, hpos, if_true, hdec, offsetAfter, newlines_cons_nl]
        rw [ih (i + 1) k (dec e) hk2 (isInt_dec e)]
        unfold dec
        rw [wrapInt_wrapInt_sub]
        congr 1
        · omega
        · congr 1; omega
      · simp only [scanStart, hpos, if_true, hc, if_false, offsetAfter]
        rw [ih (i + 1) (k + 1) e hk he, newlines_cons_ne cs hc]
        congr 1; omega

/-- The second loop stops just after the `e`-th newline of what is left. -/
theorem scanEnd_eq (text : Bytes) (i : Nat) (e : Int) (he : e ≤ intMax) :
    scanEnd text i e = i + offsetAfter text e.toNat := by
  induction text generalizing i e with
  | nil => simp [scanEnd]
  | cons c cs ih =>
    by_cases hpos : 0 < e
    · obtain ⟨k, rfl⟩ : ∃ k : Nat, e = ((k + 1 : Nat) : Int) := ⟨(e - 1).toNat, by omega⟩
      have hdec : dec ((k + 1 : Nat) : Int) = (k : Int) := by
        rw [dec_of_pos hpos he]; omega
      have hk2 : (k : Int) ≤ intMax := by unfold intMax at *; omega
      by_cases hc : c = '\n'
      · subst hc
        simp only [scanEnd, hpos, if_true, hdec, Int.toNat_ofNat, offsetAfter]
        rw [ih (i + 1) k hk2]; simp; omega
      · simp only [scanEnd, hpos, if_true, hc, if_false, Int.toNat_ofNat, offsetAfter]
        rw [ih (i + 1) _ he]; simp; omega
    · have : e.toNat = 0 := by omega
      simp [scanEnd, hpos, this]

theorem scanStart_fst_le (text : Bytes) (i : Nat) (s e : Int) :
    i ≤ (scanStart text i s e).1 ∧ (scanStart text i s e).1 ≤ i + text.length := by
  induction text generalizing i s e with
  | nil => simp [scanStart]
  | cons c cs ih =>
    simp only [scanStart, List.length_cons]
    split
    · split
      · have := ih (i + 1) (dec s) (dec e); omega
      · have := ih (i + 1) s e; omega
    · simp

theorem scanEnd_le (text : Bytes) (i : Nat) (e : Int) :
    i ≤ scanEnd text i e ∧ scanEnd text i e ≤ i + text.length := by
  induction text generalizing i e with
  | nil => simp [scanEnd]
  | cons c cs ih =>
    simp only [scanEnd, List.length_cons]
    split
    · split
      · have := ih (i + 1) (dec e); omega
      · have := ih (i + 1) e; omega
    · simp

/-- The offsets computed by `region` are always in bounds. -/
theorem regionBounds_le (text : Bytes) (start stop : Int) :
    (regionBounds text start stop).1 ≤ (regionBounds text start stop).2 ∧
      (regionBounds text start stop).2 ≤ text.length := by
  simp only [regionBounds]
  have h1 := scanStart_fst_le text 0 (dec start) stop
  have h2 := scanEnd_le (text.drop (scanStart text 0 (dec start) stop).1)
    (scanStart text 0 (dec start) stop).1 (scanStart text 0 (dec start) stop).2
  simp only [List.length_drop] at h2
  omega

theorem slice_self (text : Bytes) (a : Nat) : slice text a a = [] := by
  simp [slice, List.drop_take]

theorem slice_of_length_le (text : Bytes) (a b : Nat) (h : text.length ≤ a) :
    slice text a b = [] := by
  simp only [slice, List.drop_eq_nil_iff, List.length_take]
  omega

/-- The offsets of `region` for line numbers `0 ≤ s`, whatever `end` is. -/
theorem regionBounds_eq (text : Bytes) (s : Nat) (stop : Int) (hs : ((s : Int)) ≤ intMax)
    (he : IsInt stop) :
    regionBounds text s stop =
      (offsetAfter text (s - 1),
       offsetAfter text (s - 1) +
         offsetAfter (text.drop (offsetAfter text (s - 1)))
           (wrapInt (stop - (min (s - 1) (newlines text) : Nat))).toNat) := by
  have hd : dec (s : Int) = ((s - 1 : Nat) : Int) ∨ (s = 0 ∧ dec (s : Int) = -1) := by
    unfold intMax at hs
    unfold dec wrapInt
    omega
  simp only [regionBounds]
  rcases hd with hd | ⟨h0, hd⟩
  · rw [hd, scanStart_eq text 0 (s - 1) stop (by unfold intMax at *; omega) he]
    simp only [Nat.zero_add]
    rw [scanEnd_eq _ _ _ (isInt_wrapInt _).2]
  · subst h0
    rw [hd, scanStart_of_nonpos _ _ _ _ (by omega)]
    simp only [List.drop_zero, Nat.zero_add, Nat.zero_sub, offsetAfter_zero, Nat.zero_min,
      Nat.cast_zero, sub_zero]
    rw [scanEnd_eq _ _ _ he.2, wrapInt_of_isInt he]
    simp

/-- For line numbers `s ≤ e` the offsets of `region` are the reference offsets. -/
theorem regionBounds_eq_offsets (text : Bytes) (s e : Nat) (hse : s ≤ e)
    (he : (e : Int) ≤ intMax) :
    regionBounds text s e = (offsetAfter text (s - 1), offsetAfter text e) := by
  have hs : (s : Int) ≤ intMax := by unfold intMax at *; omega
  rw [regionBounds_eq text s e hs (isInt_natCast he)]
  have hw : wrapInt ((e : Int) - (min (s - 1) (newlines text) : Nat)) =
      ((e - min (s - 1) (newlines text) : Nat) : Int) := by
    rw [wrapInt_of_isInt]
    · omega
    · simp only [IsInt, intMin, intMax] at *; omega
  rw [hw, Int.toNat_ofNat]
  congr 1
  by_cases hn : s - 1 ≤ newlines text
  · rw [Nat.min_eq_left hn, ← offsetAfter_add text (s - 1) _ hn]
    congr 1; omega
  · have h1 : offsetAfter text (s - 1) = text.length := offsetAfter_of_lt _ _ (by omega)
    have h2 : offsetAfter text e = text.length := offsetAfter_of_lt _ _ (by omega)
    rw [h1, h2]; simp

/-- The result of `region` is empty when the buffer has fewer than `start - 1` newlines. -/
theorem region_eq_nil_of_few (text : Bytes) (start stop : Int) (hs : IsInt start)
    (he : IsInt stop) (h : (newlines text : Int) < start - 1) : region text start stop = [] := by
  obtain ⟨s, rfl⟩ : ∃ s : Nat, start = (s : Int) := ⟨start.toNat, by omega⟩
  unfold region
  rw [regionBounds_eq text s stop hs.2 he]
  apply slice_of_length_le
  rw [offsetAfter_of_lt _ _ (by omega)]

/-- The result of `region` is empty when `start > end`, as long as decrementing `end` once per
newline passed by the first loop does not wrap around. -/
theorem region_eq_nil_of_gt (text : Bytes) (start stop : Int) (hs : IsInt start)
    (he : IsInt stop) (hgt : stop < start)
    (hnw : intMin + min (start - 1) (newlines text) ≤ stop) :
    region text start stop = [] := by
  by_cases h0 : start ≤ 0
  · have hd : dec start ≤ 0 := by
      have := hs.1; have := he.1
      unfold intMin at *
      unfold dec wrapInt
      omega
    unfold region
    simp only [regionBounds]
    rw [scanStart_of_nonpos _ _ _ _ hd]
    simp only [List.drop_zero]
    rw [scanEnd_eq _ _ _ he.2]
    have : stop.toNat = 0 := by omega
    rw [this]; simp [slice_self]
  · obtain ⟨s, rfl⟩ : ∃ s : Nat, start = (s : Int) := ⟨start.toNat, by omega⟩
    unfold region
    rw [regionBounds_eq text s stop hs.2 he]
    by_cases hn : s - 1 ≤ newlines text
    · have hw : (wrapInt (stop - (min (s - 1) (newlines text) : Nat))).toNat = 0 := by
        rw [wrapInt_of_isInt]
        · omega
        · have := he.2
          unfold IsInt; unfold intMax at *; unfold intMin at *; omega
      rw [hw]; simp [slice_self]
    · apply slice_of_length_le
      rw [offsetAfter_of_lt _ _ (by omega)]

/-- On natural line numbers `region` is the slice between the reference offsets. -/
theorem region_eq_slice (text : Bytes) (s e : Nat) (hs : (s : Int) ≤ intMax)
    (he : (e : Int) ≤ intMax) :
    region text s e = slice text (offsetAfter text (s - 1)) (offsetAfter text e) := by
  by_cases hse : s ≤ e
  · unfold region; rw [regionBounds_eq_offsets text s e hse he]
  · rw [region_eq_nil_of_gt text s e (isInt_natCast hs) (isInt_natCast he) (by omega)
      (by simp only [intMin, intMax] at *; omega)]
    have := offsetAfter_mono text (j := e) (k := s - 1) (by omega)
    simp only [slice, List.drop_take]
    symm
    rw [List.take_eq_nil_iff]
    left; omega

/-! ## Lines -/

theorem flatten_linesOf (buf : Bytes) : (linesOf buf).flatten = buf := by
  induction buf with
  | nil => rfl
  | cons c cs ih =>
    simp only [linesOf]
    split
    · simp [ih]
    · split
      · rename_i h; rw [h] at ih; simp at ih; simp [← ih]
      · rename_i l ls h; rw [h] at ih; simp at ih; simp [← ih]

theorem linesOf_eq_nil (buf : Bytes) (h : linesOf buf = []) : buf = [] := by
  have := flatten_linesOf buf
  rw [h] at this; simpa using this.symm

/-- The first `k` lines are the bytes up to the `k`-th newline. -/
theorem flatten_take_linesOf (buf : Bytes) (k : Nat) :
    ((linesOf buf).take k).flatten = buf.take (offsetAfter buf k) := by
  induction buf generalizing k with
  | nil => simp [linesOf]
  | cons c cs ih =>
    cases k with
    | zero => simp
    | succ k =>
      simp only [linesOf, offsetAfter]
      by_cases hc : c = '\n'
      · simp [hc, ih k]
      · simp only [hc, if_false, List.take_succ_cons]
        have := ih (k + 1)
        split
        · rename_i h
          have hcs := linesOf_eq_nil cs h
          subst hcs; simp
        · rename_i l ls h; rw [h] at this; simp at this; simp [← this]

theorem length_flatten_take_linesOf (buf : Bytes) (k : Nat) :
    ((linesOf buf).take k).flatten.length = offsetAfter buf k := by
  rw [flatten_take_linesOf, List.length_take, Nat.min_eq_left (offsetAfter_le buf k)]

/-- The slice between two reference offsets is the lines between them. -/
theorem slice_offsets_eq_lines (buf : Bytes) (a b : Nat) :
    slice buf (offsetAfter buf a) (offsetAfter buf b) =
      (((linesOf buf).take b).drop a).flatten := by
  unfold slice
  rw [← flatten_take_linesOf]
  by_cases hab : a ≤ b
  · have h1 : ((linesOf buf).take b) = ((linesOf buf).take b).take a ++ ((linesOf buf).take b).drop a :=
      (List.take_append_drop _ _).symm
    have h2 : (((linesOf buf).take b).take a).flatten.length = offsetAfter buf a := by
      rw [List.take_take, Nat.min_eq_left hab, length_flatten_take_linesOf]
    conv_lhs => rw [h1, List.flatten_append, ← h2]
    simp
  · have h3 : ((linesOf buf).take b).drop a = [] := by
      rw [List.drop_eq_nil_iff, List.length_take]; omega
    rw [h3]
    simp only [List.flatten_nil, List.drop_eq_nil_iff]
    rw [length_flatten_take_linesOf]
    exact offsetAfter_mono buf (by omega)

/-- On natural line numbers `region` selects the lines `s..e`. -/
theorem region_eq_lines (buf : Bytes) (s e : Nat) (hs : (s : Int) ≤ intMax)
    (he : (e : Int) ≤ intMax) :
    region buf s e = (selLines (linesOf buf) s e).flatten := by
  rw [region_eq_slice buf s e hs he, slice_offsets_eq_lines]; rfl

theorem lineCount_le_length (buf : Bytes) : lineCount buf ≤ buf.length := by
  unfold lineCount
  induction buf with
  | nil => simp [linesOf]
  | cons c cs ih =>
    simp only [linesOf]
    split
    · simp; omega
    · split
      · simp
      · rename_i l ls h; rw [h] at ih; simp at ih ⊢; omega

/-- The line count is the number of newlines, plus one for an unterminated last line. -/
theorem newlines_le_lineCount (buf : Bytes) :
    newlines buf ≤ lineCount buf ∧ lineCount buf ≤ newlines buf + 1 := by
  unfold lineCount
  induction buf with
  | nil => simp [linesOf]
  | cons c cs ih =>
    by_cases hc : c = '\n'
    · subst hc
      simp only [linesOf, if_true, List.length_cons, newlines_cons_nl]
      omega
    · simp only [linesOf, hc, if_false, newlines_cons_ne cs hc]
      split
      · rename_i h; rw [h] at ih; simp at ih ⊢; omega
      · rename_i l ls h; rw [h] at ih; simp at ih ⊢; omega

/-! ## Decimal numerals -/

theorem digitChar_toNat (m : Nat) (h : m < 10) : (Nat.digitChar m).toNat = 48 + m := by
  interval_cases m <;> rfl

theorem parseDigits_append (a b : Bytes) (n : Nat) :
    parseDigits (a ++ b) n = (parseDigits a n).bind (parseDigits b) := by
  induction a generalizing n with
  | nil => simp [parseDigits]
  | cons c cs ih =>
    simp only [List.cons_append, parseDigits]
    split
    · exact ih _
    · rfl

theorem toDigitsCore_spec (fuel n : Nat) (ds : List Char) (h : n < fuel) :
    ∃ l : List Char, Nat.toDigitsCore 10 fuel n ds = l ++ ds ∧ parseDigits l 0 = some n ∧
      l ≠ [] ∧ ∀ c ∈ l, IsDigit c := by
  induction fuel generalizing n ds with
  | zero => omega
  | succ fuel ih =>
    have hd : (Nat.digitChar (n % 10)).toNat = 48 + n % 10 :=
      digitChar_toNat _ (Nat.mod_lt _ (by decide))
    have hdig : IsDigit (Nat.digitChar (n % 10)) := by
      unfold IsDigit; rw [hd]; omega
    simp only [Nat.toDigitsCore]
    by_cases h0 : n / 10 = 0
    · refine ⟨[Nat.digitChar (n % 10)], by simp [h0], ?_, by simp, by simpa using hdig⟩
      have := hdig
      unfold IsDigit at this
      simp only [parseDigits, this, and_self, if_true]
      congr 1; omega
    · obtain ⟨l, hl, hp, hne, hall⟩ := ih (n / 10) (Nat.digitChar (n % 10) :: ds) (by omega)
      refine ⟨l ++ [Nat.digitChar (n % 10)], by simp [h0, hl], ?_, by simp, ?_⟩
      · rw [parseDigits_append, hp]
        have := hdig
        unfold IsDigit at this
        simp only [Option.some_bind, parseDigits, this, and_self, if_true]
        congr 1; omega
      · intro c hc
        rcases List.mem_append.mp hc with hc | hc
        · exact hall c hc
        · simp at hc; subst hc; exact hdig

/-- The decimal numeral of `n`: not empty, all digits, and its value is `n`. -/
theorem repr_spec (n : Nat) :
    parseDigits (Nat.repr n).toList 0 = some n ∧ (Nat.repr n).toList ≠ [] ∧
      ∀ c ∈ (Nat.repr n).toList, IsDigit c := by
  obtain ⟨l, hl, hp, hne, hall⟩ := toDigitsCore_spec (n + 1) n [] (by omega)
  have : (Nat.repr n).toList = l := by
    simp [Nat.repr, Nat.toDigits, hl, List.asString]
  rw [this]
  exact ⟨hp, hne, hall⟩

/-- Go `strconv.Atoi` reads back the decimal numeral of every `n` that fits an `int`. -/
theorem atoi_repr (n : Nat) (h : (n : Int) ≤ intMax) : atoi (Nat.repr n).toList = some (n : Int) := by
  obtain ⟨hp, hne, hall⟩ := repr_spec n
  cases hl : (Nat.repr n).toList with
  | nil => exact absurd hl hne
  | cons c cs =>
    rw [hl] at hp hall
    have hc : IsDigit c := hall c (by simp)
    have h1 : c ≠ '-' := by rintro rfl; unfold IsDigit at hc; revert hc; decide
    have h2 : c ≠ '+' := by rintro rfl; unfold IsDigit at hc; revert hc; decide
    simp only [atoi, h1, h2, or_self, if_false, hp, decide_False]
    simp [isInt_natCast h]

/-! ## Searching in header lines -/

theorem indexByte_append_of_not_mem (l rest : Bytes) (b : Char) (h : b ∉ l) :
    indexByte (l ++ b :: rest) b = some l.length := by
  induction l with
  | nil => simp [indexByte]
  | cons c cs ih =>
    simp only [List.mem_cons, not_or] at h
    simp [indexByte, Ne.symm h.1, ih h.2]

theorem indexByte_of_not_mem (l : Bytes) (b : Char) (h : b ∉ l) : indexByte l b = none := by
  induction l with
  | nil => simp [indexByte]
  | cons c cs ih =>
    simp only [List.mem_cons, not_or] at h
    simp [indexByte, Ne.symm h.1, ih h.2]

theorem indexAny_append (l rest chars : Bytes) (b : Char) (hb : b ∈ chars)
    (h : ∀ c ∈ l, c ∉ chars) : indexAny (l ++ b :: rest) chars = some l.length := by
  induction l with
  | nil => simp [indexAny, hb]
  | cons c cs ih =>
    have h1 := h c (by simp)
    have h2 : ∀ c ∈ cs, c ∉ chars := fun c hc => h c (by simp [hc])
    simp [indexAny, h1, ih h2]

theorem indexAny_of_not_mem (l chars : Bytes) (h : ∀ c ∈ l, c ∉ chars) :
    indexAny l chars = none := by
  induction l with
  | nil => simp [indexAny]
  | cons c cs ih =>
    have h1 := h c (by simp)
    have h2 : ∀ c ∈ cs, c ∉ chars := fun c hc => h c (by simp [hc])
    simp [indexAny, h1, ih h2]

theorem IsDigit.ne_comma {c : Char} (h : IsDigit c) : c ≠ ',' := by
  rintro rfl; unfold IsDigit at h; revert h; decide

theorem comma_not_mem_repr (n : Nat) : ',' ∉ (Nat.repr n).toList := by
  intro h
  exact ((repr_spec n).2.2 _ h).ne_comma rfl

/-- The bytes of a decimal range are digits and commas. -/
theorem Range.render_chars (r : Range) : ∀ c ∈ r.render, IsDigit c ∨ c = ',' := by
  intro c hc
  cases r with
  | single n => exact Or.inl ((repr_spec n).2.2 c hc)
  | pair n m =>
    simp only [Range.render, List.mem_append, List.mem_cons] at hc
    rcases hc with hc | hc | hc
    · exact Or.inl ((repr_spec n).2.2 c hc)
    · exact Or.inr hc
    · exact Or.inl ((repr_spec m).2.2 c hc)

theorem Range.render_not_op (r : Range) : ∀ c ∈ r.render, c ∉ ['a', 'c', 'd'] := by
  intro c hc
  rcases r.render_chars c hc with h | h
  · intro hm
    unfold IsDigit at h
    simp only [List.mem_cons, List.mem_singleton, List.not_mem_nil, or_false] at hm
    rcases hm with rfl | rfl | rfl <;> revert h <;> decide
  · subst h; decide

theorem Range.render_not_nl (r : Range) : '\n' ∉ r.render := by
  intro hc
  rcases r.render_chars _ hc with h | h
  · unfold IsDigit at h; revert h; decide
  · revert h; decide

theorem Range.render_head (r : Range) : ∃ c cs, r.render = c :: cs ∧ IsDigit c := by
  have key : ∀ n : Nat, ∀ rest : Bytes, ∃ c cs, (Nat.repr n).toList ++ rest = c :: cs ∧ IsDigit c := by
    intro n rest
    obtain ⟨_, hne, hall⟩ := repr_spec n
    cases hl : (Nat.repr n).toList with
    | nil => exact absurd hl hne
    | cons c cs =>
      exact ⟨c, cs ++ rest, by simp, hall c (by rw [hl]; exact List.mem_cons_self _ _)⟩
  cases r with
  | single n => simpa [Range.render] using key n []
  | pair n m => exact key n _

theorem get?_append_length {α : Type} (l r : List α) (c : α) :
    (l ++ c :: r).get? l.length = some c := by
  induction l with
  | nil => rfl
  | cons x xs ih => exact ih

theorem drop_succ_append_length {α : Type} (l r : List α) (c : α) :
    (l ++ c :: r).drop (l.length + 1) = r := by
  induction l with
  | nil => rfl
  | cons x xs ih => simp

/-- Go `span` reads a decimal range back. -/
theorem span_render (r : Range) (hlo : (r.lo : Int) ≤ intMax) (hhi : (r.hi : Int) ≤ intMax) :
    span r.render = ((r.lo : Int), (r.hi : Int)) := by
  cases r with
  | single n =>
    simp only [Range.render, Range.lo, Range.hi] at *
    unfold span
    rw [indexByte_of_not_mem _ _ (comma_not_mem_repr n)]
    simp only
    rw [atoi_repr n hlo]
  | pair n m =>
    simp only [Range.render, Range.lo, Range.hi] at *
    unfold span
    rw [indexByte_append_of_not_mem _ _ _ (comma_not_mem_repr n)]
    simp only
    rw [List.take_left' rfl, drop_succ_append_length, atoi_repr n hlo, atoi_repr m hhi]

theorem Op.char_mem (o : Op) : o.char ∈ ['a', 'c', 'd'] := by
  cases o <;> decide

/-- On the header line of a hunk, `applyRegion` sets the hunk's address and writes the
hunk's data. -/
theorem applyRegion_header {σ : Type} (W : Win σ) (h : Hunk) (hf : h.Fits) (buf : Bytes) (s : σ) :
    applyRegion W h.header buf s = write W (h.data buf) h.address s := by
  obtain ⟨c, cs, hcs, hdig⟩ := h.old.render_head
  have hline : h.header = c :: (cs ++ h.op.char :: h.new.render) := by
    simp [Hunk.header, hcs]
  have hc : ¬ (c = '<' ∨ c = '-' ∨ c = '>') := by
    unfold IsDigit at hdig
    rintro (rfl | rfl | rfl) <;> revert hdig <;> decide
  have hidx : indexAny h.header ['a', 'c', 'd'] = some h.old.render.length :=
    indexAny_append _ _ _ _ h.op.char_mem h.old.render_not_op
  have htake : h.header.take h.old.render.length = h.old.render := by
    simp [Hunk.header]
  have hdrop : h.header.drop (h.old.render.length + 1) = h.new.render := by
    simp [Hunk.header]
  have hget : h.header.get? h.old.render.length = some h.op.char :=
    get?_append_length _ _ _
  unfold applyRegion
  rw [hline]
  simp only [hc, if_false]
  rw [← hline, hidx]
  simp only [htake, hdrop, hget, span_render _ hf.1 hf.2.1, span_render _ hf.2.2.1 hf.2.2.2]
  cases hop : h.op <;> simp [Op.char, Hunk.data, Hunk.address, hop]

/-! ## Sequencing -/

@[simp] theorem andThen_none {σ : Type} (s : σ) (k : σ → Option Err × σ) :
    andThen (none, s) k = k s := rfl

@[simp] theorem andThen_some {σ : Type} (e : Err) (s : σ) (k : σ → Option Err × σ) :
    andThen (some e, s) k = (some e, s) := rfl

theorem andThen_assoc {σ : Type} (r : Option Err × σ) (f g : σ → Option Err × σ) :
    andThen (andThen r f) g = andThen r (fun s => andThen (f s) g) := by
  obtain ⟨_ | e, s⟩ := r <;> rfl

theorem andThen_pure {σ : Type} (r : Option Err × σ) : andThen r (fun s => (none, s)) = r := by
  obtain ⟨_ | e, s⟩ := r <;> rfl

theorem applyLines_append {σ : Type} (W : Win σ) (xs ys : List Bytes) (buf : Bytes) (s : σ) :
    applyLines W (xs ++ ys) buf s = andThen (applyLines W xs buf s) (applyLines W ys buf) := by
  induction xs generalizing s with
  | nil => rfl
  | cons x xs ih =>
    simp only [List.cons_append, applyLines, andThen_assoc]
    congr 1
    funext s1
    exact ih s1

theorem writeHunks_append {σ : Type} (W : Win σ) (new : Bytes) (xs ys : List Hunk) (s : σ) :
    writeHunks W new (xs ++ ys) s = andThen (writeHunks W new xs s) (writeHunks W new ys) := by
  induction xs generalizing s with
  | nil => rfl
  | cons x xs ih =>
    simp only [List.cons_append, writeHunks, andThen_assoc]
    congr 1
    funext s1
    exact ih s1

/-! ## The lines of a diff text -/

theorem splitNewline_ne_nil (s : Bytes) : splitNewline s ≠ [] := by
  cases s with
  | nil => simp [splitNewline]
  | cons c cs =>
    simp only [splitNewline]
    split
    · simp
    · split <;> simp

theorem splitNewline_line (l rest : Bytes) (h : '\n' ∉ l) :
    splitNewline (l ++ '\n' :: rest) = l :: splitNewline rest := by
  induction l with
  | nil => simp [splitNewline]
  | cons c cs ih =>
    simp only [List.mem_cons, not_or] at h
    have hc : c ≠ '\n' := fun e => h.1 e.symm
    simp [splitNewline, hc, ih h.2]

theorem splitNewline_lines (ls : List Bytes) (h : ∀ l ∈ ls, '\n' ∉ l) :
    splitNewline (ls.map fun l => l ++ ['\n']).flatten = ls ++ [[]] := by
  induction ls with
  | nil => rfl
  | cons l ls ih =>
    have h1 := h l (by simp)
    have h2 : ∀ l ∈ ls, '\n' ∉ l := fun l hl => h l (by simp [hl])
    simp only [List.map_cons, List.flatten_cons, List.append_assoc, List.singleton_append,
      List.cons_append]
    rw [splitNewline_line _ _ h1, List.nil_append, ih h2]

theorem Hunk.header_not_nl (h : Hunk) : '\n' ∉ h.header := by
  simp only [Hunk.header, List.mem_append, List.mem_cons, not_or]
  refine ⟨h.old.render_not_nl, ?_, h.new.render_not_nl⟩
  cases h.op <;> decide

theorem splitNewline_diffText (ts : List HunkText) (hd : DetailsOk ts) :
    splitNewline (diffText ts) = (ts.map HunkText.lines).flatten ++ [[]] := by
  unfold diffText
  apply splitNewline_lines
  intro l hl
  simp only [List.mem_flatten, List.mem_map] at hl
  obtain ⟨_, ⟨t, ht, rfl⟩, hl⟩ := hl
  simp only [HunkText.lines, List.mem_cons] at hl
  rcases hl with rfl | hl
  · exact t.hunk.header_not_nl
  · exact (hd t ht l hl).2

theorem diffText_eq_nil_iff (ts : List HunkText) : diffText ts = [] ↔ ts = [] := by
  cases ts with
  | nil => simp [diffText]
  | cons t ts => simp [diffText, HunkText.lines]

/-! ## The loop of `apply` on a diff text -/

theorem applyRegion_nil {σ : Type} (W : Win σ) (buf : Bytes) (s : σ) :
    applyRegion W [] buf s = (none, s) := rfl

theorem applyRegion_detail {σ : Type} (W : Win σ) (d buf : Bytes) (s : σ) (h : IsDetail d) :
    applyRegion W d buf s = (none, s) := by
  cases d with
  | nil => rfl
  | cons c cs =>
    have hc : c = '<' ∨ c = '-' ∨ c = '>' := by simpa [IsDetail] using h.1
    simp [applyRegion, hc]

theorem applyLines_details {σ : Type} (W : Win σ) (ds : List Bytes) (buf : Bytes) (s : σ)
    (h : ∀ d ∈ ds, IsDetail d) : applyLines W ds buf s = (none, s) := by
  induction ds with
  | nil => rfl
  | cons d ds ih =>
    simp only [applyLines, applyRegion_detail W d buf s (h d (by simp)), andThen_none]
    exact ih fun d hd => h d (by simp [hd])

/-- Walking the lines of a diff text from last to first performs the writes of its
hunks from last to first. -/
theorem applyLines_reverse {σ : Type} (W : Win σ) (ts : List HunkText) (buf : Bytes) (s : σ)
    (hd : DetailsOk ts) (hf : ∀ t ∈ ts, t.hunk.Fits) :
    applyLines W (ts.map HunkText.lines).flatten.reverse buf s =
      writeHunks W buf (ts.map HunkText.hunk).reverse s := by
  induction ts generalizing s with
  | nil => rfl
  | cons t ts ih =>
    have hd2 : DetailsOk ts := fun t ht => hd t (by simp [ht])
    have hf2 : ∀ t ∈ ts, t.hunk.Fits := fun t ht => hf t (by simp [ht])
    have e : (List.map HunkText.lines (t :: ts)).flatten.reverse =
        (ts.map HunkText.lines).flatten.reverse ++ (t.details.reverse ++ [t.hunk.header]) := by
      simp [HunkText.lines]
    rw [e, applyLines_append, ih s hd2 hf2, List.map_cons, List.reverse_cons, writeHunks_append]
    congr 1
    funext s1
    rw [applyLines_append, applyLines_details W _ buf s1
      (fun d hdm => hd t (by simp) d (by simpa using hdm))]
    simp only [andThen_none, applyLines, writeHunks, andThen_pure]
    exact applyRegion_header W t.hunk (hf t (by simp)) buf s1

/-- What `apply` does on a diff text: the control directive unless `-mark` is set,
then the writes of the hunks from last to first. -/
theorem apply_diffText {σ : Type} (W : Win σ) (mark : Bool) (ts : List HunkText)
    (buf : Bytes) (s : σ) (hne : ts ≠ []) (hd : DetailsOk ts) (hf : ∀ t ∈ ts, t.hunk.Fits) :
    apply W mark (diffText ts) buf s =
      andThen (if !mark then W.ctl "mark\nnomark" s else (none, s))
        (writeHunks W buf (ts.map HunkText.hunk).reverse) := by
  have hlen : ¬ (diffText ts).length = 0 := by
    rw [List.length_eq_zero, diffText_eq_nil_iff]; exact hne
  unfold apply
  rw [if_neg hlen, splitNewline_diffText ts hd]
  congr 1
  funext s1
  simp only [List.reverse_append, List.reverse_cons, List.reverse_nil, List.nil_append,
    List.singleton_append, applyLines, applyRegion_nil, andThen_none]
  exact applyLines_reverse W ts buf s1 hd hf

/-! ## Addresses in a partly patched buffer -/

theorem newlines_take_offsetAfter_eq (buf : Bytes) (m : Nat) :
    newlines (buf.take (offsetAfter buf m)) = min m (newlines buf) := by
  by_cases h : m ≤ newlines buf
  · rw [newlines_take_offsetAfter buf m h, Nat.min_eq_left h]
  · rw [offsetAfter_of_lt buf m (by omega), List.take_length, Nat.min_eq_right (by omega)]

theorem agree_self (old : Bytes) (n : Nat) (h : n ≤ lineCount old) : Agree old old n :=
  ⟨fun _ _ => rfl, by omega⟩

/-- A buffer that starts with a part of `old` holding `n` newlines agrees with `old`
up to line `n`. -/
theorem agree_of_common_start (old rest : Bytes) (p n : Nat) (h : n ≤ newlines (old.take p)) :
    Agree (old.take p ++ rest) old n := by
  constructor
  · intro k hk
    rw [offsetAfter_append _ _ _ (by omega)]
    conv_rhs => rw [← List.take_append_drop p old]
    rw [offsetAfter_append _ _ _ (by omega)]
  · have h1 := (newlines_le_lineCount (old.take p ++ rest)).1
    rw [newlines_append] at h1
    omega

theorem Hunk.edit_q1 (old new : Bytes) (h : Hunk) :
    (h.edit old new).q1 = offsetAfter old h.oldEnd := by
  cases hop : h.op <;> simp [Hunk.edit, Hunk.oldEnd, hop]

theorem Hunk.edit_data (old new : Bytes) (h : Hunk) : (h.edit old new).data = h.data new := by
  cases hop : h.op <;> simp [Hunk.edit, Hunk.data, hop]

theorem Hunk.edit_q0_le (old new : Bytes) (h : Hunk) (hs : h.Sensible) :
    (h.edit old new).q0 ≤ (h.edit old new).q1 := by
  cases hop : h.op
  · simp [Hunk.edit, hop]
  · have : h.old.lo - 1 ≤ h.old.hi := by
      rcases hs with hs | hs
      · rw [hop] at hs; cases hs
      · omega
    simpa [Hunk.edit, hop] using offsetAfter_mono old this
  · have : h.old.lo - 1 ≤ h.old.hi := by
      rcases hs with hs | hs
      · rw [hop] at hs; cases hs
      · omega
    simpa [Hunk.edit, hop] using offsetAfter_mono old this

/-- In a buffer that agrees with `old` up to the end of a hunk, the hunk's address
selects the same bytes as in `old`. -/
theorem resolve_of_agree (live old new : Bytes) (h : Hunk) (hs : h.Sensible)
    (ha : Agree live old h.oldEnd) :
    resolve live h.address = some ((h.edit old new).q0, (h.edit old new).q1) := by
  obtain ⟨hoff, hcnt⟩ := ha
  cases hop : h.op
  · simp only [Hunk.oldEnd, hop] at hoff hcnt
    simp only [Hunk.address, hop, resolve, Hunk.edit, Int.toNat_ofNat]
    rw [if_pos ⟨by omega, by omega⟩, hoff _ (le_refl _)]
  · simp only [Hunk.oldEnd, hop] at hoff hcnt
    have hs2 : 1 ≤ h.old.lo ∧ h.old.lo ≤ h.old.hi := by
      rcases hs with hs | hs
      · rw [hop] at hs; cases hs
      · exact hs
    simp only [Hunk.address, hop, resolve, Hunk.edit, Int.toNat_ofNat]
    rw [if_pos ⟨by omega, by omega, by omega⟩, hoff _ (le_refl _), hoff _ (by omega)]
  · simp only [Hunk.oldEnd, hop] at hoff hcnt
    have hs2 : 1 ≤ h.old.lo ∧ h.old.lo ≤ h.old.hi := by
      rcases hs with hs | hs
      · rw [hop] at hs; cases hs
      · exact hs
    simp only [Hunk.address, hop, resolve, Hunk.edit, Int.toNat_ofNat]
    rw [if_pos ⟨by omega, by omega, by omega⟩, hoff _ (le_refl _), hoff _ (by omega)]

/-! ## Splicing -/

/-- A spliced buffer is the original up to the first edit, followed by a rest that
does not depend on where the copy started. -/
theorem spliceFrom_decomp (old : Bytes) (es : List Edit) :
    ∃ rest : Bytes, ∀ q, spliceFrom old q es = (old.take (frontier old es)).drop q ++ rest := by
  cases es with
  | nil => exact ⟨[], fun q => by simp [spliceFrom, frontier]⟩
  | cons e es =>
    exact ⟨e.data ++ spliceFrom old e.q1 es, fun q => by simp [spliceFrom, frontier]⟩

theorem frontier_le (old new : Bytes) (hs : List Hunk) :
    frontier old (hs.map (Hunk.edit old new)) ≤ old.length := by
  cases hs with
  | nil => simp [frontier]
  | cons h hs =>
    simp only [List.map_cons, frontier]
    cases hop : h.op <;> simp [Hunk.edit, hop, offsetAfter_le]

/-- Before a hunk is written, the hunks after it have left the buffer in agreement
with `old` up to the end of the hunk, and the hunk ends before they begin. -/
theorem agree_before (old new : Bytes) (h : Hunk) (rest : List Hunk)
    (hh : h.oldEnd ≤ lineCount old)
    (hall : ∀ k ∈ rest, k.Sensible ∧ k.oldEnd ≤ lineCount old)
    (hasc : AscendingFrom (h.oldEnd + 1) rest) :
    Agree (spliceFrom old 0 (rest.map (Hunk.edit old new))) old h.oldEnd ∧
      offsetAfter old h.oldEnd ≤ frontier old (rest.map (Hunk.edit old new)) := by
  cases rest with
  | nil =>
    simp only [List.map_nil, spliceFrom, List.drop_zero, frontier]
    exact ⟨agree_self old _ hh, offsetAfter_le _ _⟩
  | cons k rest =>
    obtain ⟨hks, hkr⟩ := hall k (by simp)
    have hlt : h.oldEnd + 1 ≤ k.old.lo := hasc.1
    have hnl := (newlines_le_lineCount old).2
    obtain ⟨tail, htail⟩ := spliceFrom_decomp old ((k :: rest).map (Hunk.edit old new))
    have hsp := htail 0
    simp only [List.drop_zero] at hsp
    rw [hsp]
    have key : ∃ m, frontier old ((k :: rest).map (Hunk.edit old new)) = offsetAfter old m ∧
        h.oldEnd ≤ m ∧ h.oldEnd ≤ newlines old := by
      cases hop : k.op
      · refine ⟨k.old.lo, by simp [frontier, Hunk.edit, hop], by omega, ?_⟩
        simp only [Hunk.oldEnd, hop] at hkr
        omega
      · have hs2 : 1 ≤ k.old.lo ∧ k.old.lo ≤ k.old.hi := by
          rcases hks with hs | hs
          · rw [hop] at hs; cases hs
          · exact hs
        refine ⟨k.old.lo - 1, by simp [frontier, Hunk.edit, hop], by omega, ?_⟩
        simp only [Hunk.oldEnd, hop] at hkr
        omega
      · have hs2 : 1 ≤ k.old.lo ∧ k.old.lo ≤ k.old.hi := by
          rcases hks with hs | hs
          · rw [hop] at hs; cases hs
          · exact hs
        refine ⟨k.old.lo - 1, by simp [frontier, Hunk.edit, hop], by omega, ?_⟩
        simp only [Hunk.oldEnd, hop] at hkr
        omega
    obtain ⟨m, hm, hle, hnle⟩ := key
    rw [hm]
    refine ⟨agree_of_common_start old tail _ _ ?_, offsetAfter_mono old hle⟩
    rw [newlines_take_offsetAfter_eq]
    omega

/-! ## Reverse-order application on the model buffer -/

/-- Writing the hunks from last to first into a model buffer that holds `old` never
fails and leaves the buffer that the simultaneous replacement describes. -/
theorem writeHunks_reverse_buffer (old new : Bytes) (hs : List Hunk) (lo : Nat) (b : Buffer)
    (hb : b.content = old) (hall : ∀ h ∈ hs, h.Sensible ∧ h.oldEnd ≤ lineCount old)
    (hasc : AscendingFrom lo hs) :
    ∃ b1, writeHunks bufferWin new hs.reverse b = (none, b1) ∧
      b1.content = spliceFrom old 0 (hs.map (Hunk.edit old new)) ∧
      b1.diagnostics = b.diagnostics := by
  induction hs generalizing lo with
  | nil => exact ⟨b, rfl, by simp [spliceFrom, hb], rfl⟩
  | cons h rest ih =>
    obtain ⟨hhs, hhr⟩ := hall h (by simp)
    have hall2 : ∀ k ∈ rest, k.Sensible ∧ k.oldEnd ≤ lineCount old :=
      fun k hk => hall k (by simp [hk])
    obtain ⟨b1, hrun, hcont, hdiag⟩ := ih (h.oldEnd + 1) hall2 hasc.2
    obtain ⟨hagree, hfront⟩ := agree_before old new h rest hhr hall2 hasc.2
    obtain ⟨tail, htail⟩ := spliceFrom_decomp old (rest.map (Hunk.edit old new))
    have hF := frontier_le old new rest
    have hres := resolve_of_agree _ old new h hhs hagree
    rw [← hcont] at hres
    have hq := Hunk.edit_q0_le old new h hhs
    have hq1 := Hunk.edit_q1 old new h
    rw [List.reverse_cons, writeHunks_append, hrun]
    simp only [andThen_none, writeHunks, write, bufferWin, hres, andThen_pure]
    refine ⟨_, rfl, ?_, hdiag⟩
    simp only [List.map_cons, spliceFrom, List.drop_zero, hcont, Hunk.edit_data]
    have h0 := htail 0
    simp only [List.drop_zero] at h0
    congr 1
    · congr 1
      rw [h0, List.take_append_of_le_length (by rw [List.length_take]; omega),
        List.take_take, Nat.min_eq_left (by omega)]
    · rw [h0, htail, List.drop_append_of_le_length (by rw [List.length_take]; omega)]

/-! ## A correct diff patches `old` into `new` -/

theorem flatten_drop_linesOf (buf : Bytes) (i : Nat) :
    ((linesOf buf).drop i).flatten = buf.drop (offsetAfter buf i) := by
  have h1 : ((linesOf buf).take i).flatten ++ ((linesOf buf).drop i).flatten = buf := by
    rw [← List.flatten_append, List.take_append_drop, flatten_linesOf]
  have h2 := length_flatten_take_linesOf buf i
  calc ((linesOf buf).drop i).flatten
      = (((linesOf buf).take i).flatten ++ ((linesOf buf).drop i).flatten).drop
          ((linesOf buf).take i).flatten.length := by simp
    _ = buf.drop (offsetAfter buf i) := by rw [h1, h2]

/-- Splicing at the byte level is patching at the line level. -/
theorem spliceFrom_eq_patchLines (old new : Bytes) (hs : List Hunk) (i : Nat)
    (hf : ∀ h ∈ hs, h.Fits) :
    spliceFrom old (offsetAfter old i) (hs.map (Hunk.edit old new)) =
      (patchLines (linesOf old) (linesOf new) i hs).flatten := by
  induction hs generalizing i with
  | nil => simp [spliceFrom, patchLines, flatten_drop_linesOf]
  | cons h hs ih =>
    have hfit := hf h (by simp)
    have hf2 : ∀ k ∈ hs, k.Fits := fun k hk => hf k (by simp [hk])
    have hreg := region_eq_lines new h.new.lo h.new.hi hfit.2.2.1 hfit.2.2.2
    have hsl : ∀ a b, (old.take (offsetAfter old b)).drop (offsetAfter old a) =
        (((linesOf old).take b).drop a).flatten := slice_offsets_eq_lines old
    cases hop : h.op
    · simp only [List.map_cons, spliceFrom, patchLines, hop, Hunk.edit, List.flatten_append,
        ih _ hf2, hsl, hreg]
    · simp only [List.map_cons, spliceFrom, patchLines, hop, Hunk.edit, List.flatten_append,
        ih _ hf2, hsl, hreg]
    · simp only [List.map_cons, spliceFrom, patchLines, hop, Hunk.edit, List.flatten_append,
        ih _ hf2, hsl, List.append_nil]

/-- Replacing simultaneously by a correct diff of `old` against `new` gives `new`. -/
theorem simultaneous_eq_new (old new : Bytes) (hs : List Hunk) (h : CorrectDiff old new hs) :
    simultaneous old new hs = new := by
  have hf : ∀ k ∈ hs, k.Fits := fun k hk => (h.1.1 k hk).1
  have := spliceFrom_eq_patchLines old new hs 0 hf
  rw [offsetAfter_zero] at this
  rw [simultaneous, this, h.2, flatten_linesOf]

/-! ## The recording window -/

/-- The three ways in which `applyRegion` can end: nothing, a diagnostic, or one
set-address followed by one data write. -/
theorem applyRegion_shape {σ : Type} (W : Win σ) (line buf : Bytes) :
    (∀ s, applyRegion W line buf s = (none, s)) ∨
    (∃ msg, ∀ s, applyRegion W line buf s = (none, W.logPrintln msg s)) ∨
    (∃ d a, ∀ s, applyRegion W line buf s = write W d a s) := by
  unfold applyRegion
  cases line with
  | nil => exact Or.inl fun _ => rfl
  | cons c cs =>
    by_cases hc : c = '<' ∨ c = '-' ∨ c = '>'
    · exact Or.inl fun _ => by simp only [hc, if_true]
    · simp only [hc, if_false]
      cases indexAny (c :: cs) ['a', 'c', 'd'] with
      | none => exact Or.inr (Or.inl ⟨_, fun _ => rfl⟩)
      | some i =>
        simp only
        split
        · exact Or.inr (Or.inr ⟨_, _, fun _ => rfl⟩)
        · exact Or.inr (Or.inr ⟨_, _, fun _ => rfl⟩)
        · exact Or.inr (Or.inr ⟨_, _, fun _ => rfl⟩)
        · exact Or.inl fun _ => rfl

theorem write_recWin (q : Int × Int) (d : Bytes) (a : Address) (s : List Event) :
    write (recWin q) d a s = (none, s ++ [Event.addr a, Event.data d]) := by
  simp [write, recWin]

/-- In the recording window `applyRegion` never fails, only appends to the trace,
and appends no control directive. -/
theorem applyRegion_recWin (q : Int × Int) (line buf : Bytes) :
    ∃ t : List Event, (∀ s, applyRegion (recWin q) line buf s = (none, s ++ t)) ∧
      ∀ ev ∈ t, ev.isCtl = false := by
  rcases applyRegion_shape (recWin q) line buf with h | ⟨msg, h⟩ | ⟨d, a, h⟩
  · exact ⟨[], fun s => by simp [h], by simp⟩
  · exact ⟨[Event.log msg], fun s => by rw [h]; rfl, by simp [Event.isCtl]⟩
  · exact ⟨[Event.addr a, Event.data d], fun s => by rw [h, write_recWin],
      by simp [Event.isCtl]⟩

theorem applyLines_recWin (q : Int × Int) (ls : List Bytes) (buf : Bytes) :
    ∃ t : List Event, (∀ s, applyLines (recWin q) ls buf s = (none, s ++ t)) ∧
      ∀ ev ∈ t, ev.isCtl = false := by
  induction ls with
  | nil => exact ⟨[], fun s => by simp [applyLines], by simp⟩
  | cons l ls ih =>
    obtain ⟨t1, h1, c1⟩ := applyRegion_recWin q l buf
    obtain ⟨t2, h2, c2⟩ := ih
    refine ⟨t1 ++ t2, fun s => ?_, ?_⟩
    · simp only [applyLines]
      rw [h1, andThen_none, h2, List.append_assoc]
    · intro ev hev
      rcases List.mem_append.mp hev with hev | hev
      · exact c1 ev hev
      · exact c2 ev hev

/-- In the recording window `apply` never fails and only appends to the trace. -/
theorem apply_recWin (q : Int × Int) (mark : Bool) (diff buf : Bytes) (s : List Event) :
    apply (recWin q) mark diff buf s = (none, s ++ (apply (recWin q) mark diff buf []).2) := by
  obtain ⟨t, ht, _⟩ := applyLines_recWin q (splitNewline diff).reverse buf
  unfold apply
  by_cases h : diff.length = 0
  · simp [h]
  · simp only [h, if_false]
    cases mark
    · have e : ∀ s, (recWin q).ctl "mark\nnomark" s = (none, s ++ [Event.ctl "mark\nnomark"]) :=
        fun _ => rfl
      simp only [Bool.not_false, if_true, e, andThen_none, ht]
      simp
    · simp only [Bool.not_true, Bool.false_eq_true, if_false, andThen_none, ht]
      simp

theorem writeErrors_recWin (q : Int × Int) (buf : Bytes) (s : List Event) :
    writeErrors (recWin q) buf s = (none, s ++ (writeErrors (recWin q) buf []).2) ∧
      ∀ ev ∈ (writeErrors (recWin q) buf []).2, ev.isBufferOp = false := by
  unfold writeErrors
  by_cases h : buf.length = 0
  · simp [h]
  · simp [h, recWin, Event.isBufferOp]

/-- The trace of `writeErrors`: one write to the errors file, unless there is nothing
to write. -/
theorem writeErrors_trace (q : Int × Int) (buf : Bytes) :
    (writeErrors (recWin q) buf []).2 = if buf = [] then [] else [Event.errors buf] := by
  unfold writeErrors
  by_cases h : buf = []
  · subst h; rfl
  · have hlen : ¬ buf.length = 0 := by simpa using h
    simp [h, hlen, recWin]

/-- On a well-placed diff text `apply` leaves the simultaneous replacement in the model
buffer. -/
theorem apply_on_buffer (old new : Bytes) (ts : List HunkText) (mark : Bool)
    (hd : DetailsOk ts) (hw : WellPlaced old (ts.map HunkText.hunk)) :
    (apply bufferWin mark (diffText ts) new (Buffer.holding old)).1 = none ∧
      (apply bufferWin mark (diffText ts) new (Buffer.holding old)).2.content =
        simultaneous old new (ts.map HunkText.hunk) := by
  by_cases hne : ts = []
  · subst hne
    simp [apply, diffText, simultaneous, spliceFrom, Buffer.holding]
  · have hf : ∀ t ∈ ts, t.hunk.Fits := fun t ht => (hw.1 t.hunk (List.mem_map_of_mem _ ht)).1
    have hall : ∀ h ∈ ts.map HunkText.hunk, h.Sensible ∧ h.oldEnd ≤ lineCount old :=
      fun h hh => (hw.1 h hh).2
    obtain ⟨b1, hrun, hcont, _⟩ := writeHunks_reverse_buffer old new (ts.map HunkText.hunk) 0
      (Buffer.holding old) rfl hall hw.2
    have hctl : (if (!mark) = true then bufferWin.ctl "mark\nnomark" (Buffer.holding old)
        else (none, Buffer.holding old)) = (none, Buffer.holding old) := by
      cases mark <;> rfl
    rw [apply_diffText bufferWin mark ts new _ hne hd hf, hctl, andThen_none, hrun]
    exact ⟨rfl, hcont⟩

/-- What `patchOutput` does in the recording system once `new` is not empty and the
diff process has run (with status zero or not): no error, and the trace is the two
temporary files, the diff, the diagnostics and the trace of `apply`. -/
theorem patchOutput_recSys (q : Int × Int) (mark : Bool) (old new out errs : Bytes)
    (err : RunError) (hnew : new ≠ []) (herr : ∀ e, err ≠ RunError.other e) :
    patchOutput (recSys q ⟨out, errs, err⟩) mark old new [] =
      (Outcome.ok,
        [Event.tempfile new, Event.tempfile old, Event.diff 1 0] ++
          (writeErrors (recWin q) errs []).2 ++ (apply (recWin q) mark out new []).2) := by
  have hlen : ¬ new.length = 0 := by simpa using hnew
  have hw := (writeErrors_recWin q errs [Event.tempfile new, Event.tempfile old, Event.diff 1 0]).1
  have ha := apply_recWin q mark out new
    ([Event.tempfile new, Event.tempfile old, Event.diff 1 0] ++ (writeErrors (recWin q) errs []).2)
  unfold patchOutput
  simp only [hlen, if_false, recSys, List.countP_nil, List.nil_append, List.countP_cons,
    List.countP_nil]
  cases err with
  | other e => exact absurd rfl (herr e)
  | none =>
    simp only [List.singleton_append, List.cons_append, List.nil_append, if_true, Nat.zero_add]
    rw [hw]; simp only; rw [ha]; simp
  | exitError st =>
    simp only [List.singleton_append, List.cons_append, List.nil_append, if_true, Nat.zero_add]
    rw [hw]; simp only; rw [ha]; simp

/-- When the diff tool could not be run, the type assertion in `patchOutput` panics. -/
theorem patchOutput_not_run (q : Int × Int) (mark : Bool) (old new out errs : Bytes) (e : Err)
    (hnew : new ≠ []) :
    patchOutput (recSys q ⟨out, errs, RunError.other e⟩) mark old new [] =
      (Outcome.panicked, [Event.tempfile new, Event.tempfile old, Event.diff 1 0]) := by
  have hlen : ¬ new.length = 0 := by simpa using hnew
  simp [patchOutput, hlen, recSys]

/-- A header line without any of `a`, `c`, `d` is reported and skipped. -/
theorem applyRegion_without_op {σ : Type} (W : Win σ) (c : Char) (cs buf : Bytes) (s : σ)
    (hc : ¬ (c = '<' ∨ c = '-' ∨ c = '>')) (hop : ∀ x ∈ c :: cs, x ∉ ['a', 'c', 'd']) :
    applyRegion W (c :: cs) buf s =
      (none, W.logPrintln ("cannot parse diff: ".toList ++ c :: cs) s) := by
  unfold applyRegion
  simp only [hc, if_false, indexAny_of_not_mem _ _ hop]

/-! ## The claims -/

/-- Counterexample to C1 as stated: the header `1c1,9223372036854775808` is well-formed
and sits at line 1 of `old`, but its last number does not fit an `int`; `span`
answers `0, 0` for the new range, `apply` replaces line 1 by nothing and leaves an
empty buffer, while replacing line 1 by the new lines gives `"X\n"`. -/
theorem apply_numeral_too_large :
    DetailsOk [hunkTooLarge] ∧
      PlacedInOld "a\n".toList ([hunkTooLarge].map HunkText.hunk) ∧
      diffText [hunkTooLarge] = "1c1,9223372036854775808\n< a\n---\n> X\n".toList ∧
      (apply bufferWin false (diffText [hunkTooLarge]) "X\n".toList
        (Buffer.holding "a\n".toList)) = (none, ⟨[], 0, 0, []⟩) ∧
      simultaneous "a\n".toList "X\n".toList ([hunkTooLarge].map HunkText.hunk) =
        "X\n".toList := by
  decide

/-- C1, amended (reverse-order safety): for a diff text whose hunks are well placed in
`old` (numbers that fit an `int`, strictly increasing non-overlapping old-line
positions, all of them lines of `old`), running `apply` on a model buffer that holds
`old`
returns no error and leaves exactly the buffer obtained by replacing every hunk's
old range simultaneously against the unmodified `old`; this holds for either
setting of `-mark` and whatever number of lines each hunk inserts or deletes. -/
theorem apply_reverse_order_safe (old new : Bytes) (ts : List HunkText) (mark : Bool)
    (hd : DetailsOk ts) (hw : WellPlaced old (ts.map HunkText.hunk)) :
    (apply bufferWin mark (diffText ts) new (Buffer.holding old)).1 = none ∧
      (apply bufferWin mark (diffText ts) new (Buffer.holding old)).2.content =
        simultaneous old new (ts.map HunkText.hunk) := by
  by_cases hne : ts = []
  · subst hne
    simp [apply, diffText, simultaneous, spliceFrom, Buffer.holding]
  · have hf : ∀ t ∈ ts, t.hunk.Fits := fun t ht => (hw.1 t.hunk (List.mem_map_of_mem _ ht)).1
    have hall : ∀ h ∈ ts.map HunkText.hunk, h.Sensible ∧ h.oldEnd ≤ lineCount old :=
      fun h hh => (hw.1 h hh).2
    obtain ⟨b1, hrun, hcont, _⟩ := writeHunks_reverse_buffer old new (ts.map HunkText.hunk) 0
      (Buffer.holding old) rfl hall hw.2
    have hctl : (if (!mark) = true then bufferWin.ctl "mark\nnomark" (Buffer.holding old)
        else (none, Buffer.holding old)) = (none, Buffer.holding old) := by
      cases mark <;> rfl
    rw [apply_diffText bufferWin mark ts new _ hne hd hf, hctl, andThen_none, hrun]
    exact ⟨rfl, hcont⟩

/-- Witness for C1: the three hunks `2c2,3`, `4d4`, `5a6` on a five-line buffer. -/
theorem apply_reverse_order_safe_witness :
    DetailsOk exDiff ∧ WellPlaced exOld (exDiff.map HunkText.hunk) ∧
      (apply bufferWin false (diffText exDiff) exNew (Buffer.holding exOld)).1 = none ∧
      (apply bufferWin false (diffText exDiff) exNew (Buffer.holding exOld)).2.content =
        simultaneous exOld exNew (exDiff.map HunkText.hunk) ∧
      simultaneous exOld exNew (exDiff.map HunkText.hunk) = "a\nX\nY\nc\ne\nf\n".toList :=
  ⟨by decide, by decide,
    (apply_reverse_order_safe exOld exNew exDiff false (by decide) (by decide)).1,
    (apply_reverse_order_safe exOld exNew exDiff false (by decide) (by decide)).2,
    by decide⟩

/-- C2 (idempotence of patching): when the diff text is a correct line diff of `old`
against `new`, `apply` on a model buffer that holds `old` returns no error and
leaves a buffer whose contents are byte for byte `new`; the empty diff is then a
correct diff of the patched buffer against `new`. -/
theorem apply_correct_diff (old new : Bytes) (ts : List HunkText) (mark : Bool)
    (hd : DetailsOk ts) (hc : CorrectDiff old new (ts.map HunkText.hunk)) :
    (apply bufferWin mark (diffText ts) new (Buffer.holding old)).1 = none ∧
      (apply bufferWin mark (diffText ts) new (Buffer.holding old)).2.content = new ∧
      CorrectDiff (apply bufferWin mark (diffText ts) new (Buffer.holding old)).2.content new
        [] := by
  obtain ⟨h1, h2⟩ := apply_on_buffer old new ts mark hd hc.1
  rw [simultaneous_eq_new old new _ hc] at h2
  refine ⟨h1, h2, ?_⟩
  rw [h2]
  exact ⟨⟨by simp, trivial⟩, by simp [patchLines]⟩

/-- Witness for C2: the three scenarios `2c2`, `2a3` and `2d1`. -/
theorem apply_correct_diff_witness :
    (CorrectDiff "a\nb\nc\n".toList "a\nX\nc\n".toList ([hunk2c2].map HunkText.hunk) ∧
      (apply bufferWin false (diffText [hunk2c2]) "a\nX\nc\n".toList
        (Buffer.holding "a\nb\nc\n".toList)).2.content = "a\nX\nc\n".toList) ∧
    (CorrectDiff "a\nb\n".toList "a\nb\nc\n".toList ([hunk2a3].map HunkText.hunk) ∧
      (apply bufferWin false (diffText [hunk2a3]) "a\nb\nc\n".toList
        (Buffer.holding "a\nb\n".toList)).2.content = "a\nb\nc\n".toList) ∧
    (CorrectDiff "a\nb\nc\n".toList "a\nc\n".toList ([hunk2d1].map HunkText.hunk) ∧
      (apply bufferWin false (diffText [hunk2d1]) "a\nc\n".toList
        (Buffer.holding "a\nb\nc\n".toList)).2.content = "a\nc\n".toList) :=
  ⟨⟨by decide, (apply_correct_diff _ _ [hunk2c2] false (by decide) (by decide)).2.1⟩,
   ⟨by decide, (apply_correct_diff _ _ [hunk2a3] false (by decide) (by decide)).2.1⟩,
   ⟨by decide, (apply_correct_diff _ _ [hunk2d1] false (by decide) (by decide)).2.1⟩⟩

theorem take_drop_pred {α : Type} (l : List α) (k : Nat) (h1 : 1 ≤ k) (hk : k ≤ l.length) :
    ∃ x, l.get? (k - 1) = some x ∧ (l.take k).drop (k - 1) = [x] := by
  have hlt : k - 1 < l.length := by omega
  refine ⟨l[k - 1], by simp [List.getElem?_eq_getElem hlt], ?_⟩
  have : k - (k - 1) = 1 := by omega
  rw [List.drop_take, this, List.drop_eq_getElem_cons hlt]
  rfl

/-- C3 (line-span extraction equals its reference definition): for every buffer and
line numbers `s ≤ e` (so for all `1 ≤ s ≤ e`), `region` computes as its offsets the
offset just after the `(s-1)`-th newline (`0` when `s = 1`) and the offset just after
the `e`-th newline (the length of the buffer when there are fewer) and returns the
slice between them; for every line number `k` of the buffer `region(buf, k, k)` is
line `k` with its trailing newline when it has one, and `region(buf, 1, N)` for the
line count `N` is the whole buffer, also when the last line has no newline. -/
theorem region_eq_reference (buf : Bytes) (s e : Nat) (hse : s ≤ e)
    (he : (e : Int) ≤ intMax) :
    regionBounds buf s e = (offsetAfter buf (s - 1), offsetAfter buf e) ∧
      region buf s e = slice buf (offsetAfter buf (s - 1)) (offsetAfter buf e) ∧
      (∀ k : Nat, 1 ≤ k → k ≤ lineCount buf → (k : Int) ≤ intMax →
        (linesOf buf).get? (k - 1) = some (region buf k k)) ∧
      ((lineCount buf : Int) ≤ intMax → region buf 1 (lineCount buf) = buf) := by
  have hsI : (s : Int) ≤ intMax := by unfold intMax at *; omega
  refine ⟨regionBounds_eq_offsets buf s e hse he, region_eq_slice buf s e hsI he, ?_, ?_⟩
  · intro k hk1 hk hkI
    obtain ⟨x, hx, hx2⟩ := take_drop_pred (linesOf buf) k hk1 hk
    rw [region_eq_lines buf k k hkI hkI, selLines, hx2, hx]
    simp
  · intro hnI
    have := region_eq_lines buf 1 (lineCount buf) (by unfold intMax; omega) hnI
    simp only [Nat.cast_one] at this
    rw [this, selLines, lineCount]
    simp [flatten_linesOf]

/-- Witness for C3: lines 2 to 3, and line 3, of a buffer whose last line has no
newline; and line 1 of the empty buffer. -/
theorem region_eq_reference_witness :
    (regionBounds "a\nb\nc".toList 2 3 = (2, 5) ∧
      region "a\nb\nc".toList 2 3 = "b\nc".toList ∧
      (linesOf "a\nb\nc".toList).get? 2 = some (region "a\nb\nc".toList 3 3) ∧
      region "a\nb\nc".toList 1 (lineCount "a\nb\nc".toList) = "a\nb\nc".toList) ∧
    (regionBounds [] 1 1 = (0, 0) ∧ region [] 1 1 = [] ∧ region [] 1 (lineCount []) = []) :=
  have h := region_eq_reference "a\nb\nc".toList 2 3 (by decide) (by decide)
  have h0 := region_eq_reference [] 1 1 (by decide) (by decide)
  ⟨⟨h.1.trans (by decide), h.2.1.trans (by decide),
      h.2.2.1 3 (by decide) (by decide) (by decide), h.2.2.2 (by decide)⟩,
    ⟨h0.1.trans (by decide), h0.2.1.trans (by decide), h0.2.2.2 (by decide)⟩⟩

/-- Counterexample to C4 as stated: with `start = 3` and `end` the smallest `int`,
`start > end`, yet decrementing `end` wraps around and `region` returns line 3. -/
theorem region_gt_not_empty :
    IsInt 3 ∧ IsInt intMin ∧ (3 : Int) > intMin ∧
      region "a\nb\nc\n".toList 3 intMin = "c\n".toList ∧
      region "a\nb\nc\n".toList 3 intMin ≠ [] := by
  decide

/-- C4, amended (line-span extraction degrades gracefully): for every buffer and all
`int` values `start`, `end`, the offsets of `region` satisfy
`0 ≤ startByte ≤ endByte ≤ len(text)`; the result is empty whenever the buffer has
fewer than `start - 1` newlines, and whenever `start > end` provided the decrements
of `end` in the first loop do not wrap around, that is
`end ≥ minInt + min(start - 1, number of newlines)`. -/
theorem region_graceful (text : Bytes) (start stop : Int) (hs : IsInt start)
    (he : IsInt stop) :
    ((regionBounds text start stop).1 ≤ (regionBounds text start stop).2 ∧
      (regionBounds text start stop).2 ≤ text.length) ∧
    (((newlines text : Int) < start - 1 ∨
        (stop < start ∧ intMin + min (start - 1) (newlines text) ≤ stop)) →
      region text start stop = []) := by
  refine ⟨regionBounds_le text start stop, ?_⟩
  rintro (h | ⟨h1, h2⟩)
  · exact region_eq_nil_of_few text start stop hs he h
  · exact region_eq_nil_of_gt text start stop hs he h1 h2

/-- Witness for C4: a start line past the end of the buffer, and `start > end` with
a zero and a negative line number. -/
theorem region_graceful_witness :
    IsInt 5 ∧ IsInt 2 ∧ IsInt (-1) ∧ IsInt 0 ∧
      region "a\nb".toList 5 2 = [] ∧ region "a\nb\nc\n".toList 0 (-1) = [] :=
  ⟨by decide, by decide, by decide, by decide,
    (region_graceful "a\nb".toList 5 2 (by decide) (by decide)).2 (Or.inl (by decide)),
    (region_graceful "a\nb\nc\n".toList 0 (-1) (by decide) (by decide)).2
      (Or.inr ⟨by decide, by decide⟩)⟩

/-- Counterexample to C5 as stated: the header `9223372036854775808c1` has the form
of a hunk header, but its old line number does not fit an `int`; `strconv.Atoi`
fails, `span` answers `0, 0`, and the write goes to the address `0,0`. -/
theorem applyRegion_numeral_too_large :
    (⟨Range.single 9223372036854775808, Op.change, Range.single 1⟩ : Hunk).header =
        "9223372036854775808c1".toList ∧
      applyRegion (recWin (0, 0)) "9223372036854775808c1".toList "a\n".toList [] =
        (none, [Event.addr (Address.lines 0 0), Event.data "a\n".toList]) := by
  decide

/-- C5, amended (hunk dispatch by kind): on the header line of a hunk whose numbers
fit an `int`, `applyRegion` returns no error and issues exactly one set-address
followed by exactly one data write: for `a` the address `oldStart+#0` with the new lines
`newStart..newEnd`, for `c` the address `oldStart,oldEnd` with the new lines
`newStart..newEnd`, for `d` the address `oldStart,oldEnd` with no data. -/
theorem applyRegion_dispatch (h : Hunk) (hf : h.Fits) (new : Bytes) (q : Int × Int) :
    applyRegion (recWin q) h.header new [] =
      (none,
        match h.op with
        | Op.add =>
          [Event.addr (Address.after h.old.lo), Event.data (region new h.new.lo h.new.hi)]
        | Op.change =>
          [Event.addr (Address.lines h.old.lo h.old.hi),
            Event.data (region new h.new.lo h.new.hi)]
        | Op.delete => [Event.addr (Address.lines h.old.lo h.old.hi), Event.data []]) := by
  rw [applyRegion_header (recWin q) h hf, write_recWin]
  cases hop : h.op <;> simp [Hunk.address, Hunk.data, hop]

/-- Witness for C5: `2c2` writes `"X\n"` at `2,2`, `2a3` writes `"c\n"` at `2+#0`,
`2d1` writes nothing at `2,2`. -/
theorem applyRegion_dispatch_witness :
    (hunk2c2.hunk.Fits ∧ hunk2c2.hunk.header = "2c2".toList ∧
      applyRegion (recWin (0, 0)) "2c2".toList "a\nX\nc\n".toList [] =
        (none, [Event.addr (Address.lines 2 2), Event.data "X\n".toList]) ∧
      (Address.lines 2 2).format = "2,2") ∧
    (hunk2a3.hunk.Fits ∧ hunk2a3.hunk.header = "2a3".toList ∧
      applyRegion (recWin (0, 0)) "2a3".toList "a\nb\nc\n".toList [] =
        (none, [Event.addr (Address.after 2), Event.data "c\n".toList]) ∧
      (Address.after 2).format = "2+#0") ∧
    (hunk2d1.hunk.Fits ∧ hunk2d1.hunk.header = "2d1".toList ∧
      applyRegion (recWin (0, 0)) "2d1".toList "a\nc\n".toList [] =
        (none, [Event.addr (Address.lines 2 2), Event.data []])) :=
  ⟨⟨by decide, by decide,
      (applyRegion_dispatch hunk2c2.hunk (by decide) "a\nX\nc\n".toList (0, 0)).trans (by decide),
      by decide⟩,
   ⟨by decide, by decide,
      (applyRegion_dispatch hunk2a3.hunk (by decide) "a\nb\nc\n".toList (0, 0)).trans (by decide),
      by decide⟩,
   ⟨by decide, by decide,
      (applyRegion_dispatch hunk2d1.hunk (by decide) "a\nc\n".toList (0, 0)).trans (by decide)⟩⟩

/-- C6, the code at the failing inputs: on the header `2,zc3` the program prints no
diagnostic and writes new line 3 at the address `0,0`; on `xcy` it prints no
diagnostic and writes no bytes at `0,0`; a diff text holding only `2,zc3` puts new
line 3 in front of the buffer. -/
theorem applyRegion_unparsable_numbers :
    applyRegion (recWin (0, 0)) "2,zc3".toList "a\nb\nc\n".toList [] =
        (none, [Event.addr (Address.lines 0 0), Event.data "c\n".toList]) ∧
      applyRegion (recWin (0, 0)) "xcy".toList "a\nb\nc\n".toList [] =
        (none, [Event.addr (Address.lines 0 0), Event.data []]) ∧
      (apply bufferWin false "2,zc3\n".toList "a\nb\nc\n".toList
        (Buffer.holding "a\nb\nc\n".toList)).2.content = "c\na\nb\nc\n".toList := by
  decide

/-- Counterexample to C7 as stated: on the byte-identical inputs `"a\n"`, `"a\n"`
`patchOutput` creates two temporary files and invokes the diff tool. -/
theorem patchOutput_equal_invokes_diff :
    patchOutput (recSys (0, 0) ⟨[], [], RunError.none⟩) false "a\n".toList "a\n".toList [] =
      (Outcome.ok,
        [Event.tempfile "a\n".toList, Event.tempfile "a\n".toList, Event.diff 1 0]) := by
  decide

/-- C7, amended (no-op on equal inputs): for byte-identical `old` and `new`,
`writeOutput` performs no operation at all, in any window; `patchOutput` has no
equality check of its own: for a non-empty buffer it writes the two temporary
files and runs the diff tool, and when the diff tool prints no hunks, as it does
for identical inputs, the only further operation is the write of the tool's stderr
(when there is any, and the tool has run) to the errors file, so that it performs no
buffer operation (control directive, set-address, data write). -/
theorem noop_on_equal (buf errs : Bytes) (err : RunError) (mark : Bool) (q : Int × Int) :
    (∀ (σ : Type) (W : Win σ) (s : σ), writeOutput W buf buf s = (none, s)) ∧
      (∀ ev ∈ (patchOutput (recSys q ⟨[], errs, err⟩) mark buf buf []).2,
        ev.isBufferOp = false) ∧
      (buf ≠ [] →
        (patchOutput (recSys q ⟨[], errs, err⟩) mark buf buf []).2 =
          [Event.tempfile buf, Event.tempfile buf, Event.diff 1 0] ++
            match err with
            | RunError.other _ => []
            | _ => if errs = [] then [] else [Event.errors errs]) := by
  have htrace : buf ≠ [] →
      (patchOutput (recSys q ⟨[], errs, err⟩) mark buf buf []).2 =
        [Event.tempfile buf, Event.tempfile buf, Event.diff 1 0] ++
          match err with
          | RunError.other _ => []
          | _ => if errs = [] then [] else [Event.errors errs] := by
    intro hb
    have happ : (apply (recWin q) mark [] buf []).2 = [] := by simp [apply]
    cases err with
    | other e => rw [patchOutput_not_run q mark buf buf [] errs e hb]; rfl
    | none =>
      rw [patchOutput_recSys q mark buf buf [] errs _ hb (fun _ h => by cases h),
        writeErrors_trace, happ]
      simp
    | exitError st =>
      rw [patchOutput_recSys q mark buf buf [] errs _ hb (fun _ h => by cases h),
        writeErrors_trace, happ]
      simp
  refine ⟨?_, ?_, htrace⟩
  · intro σ W s
    unfold writeOutput
    by_cases h : buf.length = 0 <;> simp [h]
  · by_cases hb : buf = []
    · subst hb
      simp [patchOutput]
    · rw [htrace hb]
      intro ev hev
      simp only [List.mem_append, List.mem_cons, List.mem_singleton, List.not_mem_nil,
        or_false] at hev
      rcases hev with (rfl | rfl | rfl) | hev
      · rfl
      · rfl
      · rfl
      · cases err <;> by_cases he : errs = [] <;> simp [he] at hev <;> subst hev <;> rfl

/-- Witness for C7: equal inputs, a diff tool that prints no hunks, warns on stderr
and exits with status zero. -/
theorem noop_on_equal_witness :
    writeOutput (recWin (0, 0)) "a\n".toList "a\n".toList [] = (none, []) ∧
      (∀ ev ∈ (patchOutput (recSys (0, 0) ⟨[], "warning\n".toList, RunError.none⟩) false
          "a\n".toList "a\n".toList []).2, ev.isBufferOp = false) ∧
      (patchOutput (recSys (0, 0) ⟨[], "warning\n".toList, RunError.none⟩) false
          "a\n".toList "a\n".toList []).2 =
        [Event.tempfile "a\n".toList, Event.tempfile "a\n".toList, Event.diff 1 0,
          Event.errors "warning\n".toList] :=
  have h := noop_on_equal "a\n".toList "warning\n".toList RunError.none false (0, 0)
  ⟨h.1 _ _ _, h.2.1, (h.2.2 (by decide)).trans (by decide)⟩

/-- Counterexample to C8 as stated: the diff tool exits with status 2, and
`patchOutput` returns no error and applies the output to the buffer. -/
theorem patchOutput_status_two_applies :
    patchOutput (recSys (0, 0) ⟨"1d0\n< a\n".toList, [], RunError.exitError 2⟩) false
        "a\nb\n".toList "b\n".toList [] =
      (Outcome.ok,
        [Event.tempfile "b\n".toList, Event.tempfile "a\nb\n".toList, Event.diff 1 0,
          Event.ctl "mark\nnomark", Event.addr (Address.lines 1 1), Event.data []]) := by
  decide

/-- C8, amended (diff exit status is ignored): when the diff tool has run, whatever
its exit status (zero, one or any other), `patchOutput` returns no invocation error;
after the two temporary files and the diff run it writes the tool's stderr, when not
empty, to the errors file and then goes on to apply the diff output, exactly as it
does for status zero. -/
theorem patchOutput_ignores_exit_status (q : Int × Int) (mark : Bool)
    (old new out errs : Bytes) (status : Int) (hnew : new ≠ []) :
    patchOutput (recSys q ⟨out, errs, RunError.exitError status⟩) mark old new [] =
        (Outcome.ok,
          [Event.tempfile new, Event.tempfile old, Event.diff 1 0] ++
            (if errs = [] then [] else [Event.errors errs]) ++
            (apply (recWin q) mark out new []).2) ∧
      patchOutput (recSys q ⟨out, errs, RunError.none⟩) mark old new [] =
        (Outcome.ok,
          [Event.tempfile new, Event.tempfile old, Event.diff 1 0] ++
            (if errs = [] then [] else [Event.errors errs]) ++
            (apply (recWin q) mark out new []).2) := by
  rw [← writeErrors_trace q errs]
  exact ⟨patchOutput_recSys q mark old new out errs _ hnew (fun _ h => by cases h),
    patchOutput_recSys q mark old new out errs _ hnew (fun _ h => by cases h)⟩

/-- Witness for C8: with exit status 2 and a warning on stderr, the warning goes to
the errors file and the hunk `1d0` is applied. -/
theorem patchOutput_ignores_exit_status_witness :
    patchOutput (recSys (0, 0) ⟨"1d0\n< a\n".toList, "warning\n".toList, RunError.exitError 2⟩)
        false "a\nb\n".toList "b\n".toList [] =
      (Outcome.ok,
        [Event.tempfile "b\n".toList, Event.tempfile "a\nb\n".toList, Event.diff 1 0,
          Event.errors "warning\n".toList, Event.ctl "mark\nnomark",
          Event.addr (Address.lines 1 1), Event.data []]) :=
  (patchOutput_ignores_exit_status (0, 0) false "a\nb\n".toList "b\n".toList
    "1d0\n< a\n".toList "warning\n".toList 2 (by decide)).1.trans (by decide)

/-- C9 (undo grouping): for a non-empty diff text, without `-mark` the trace of
`apply` is the single control directive `mark`, `nomark` followed by exactly the
trace that `apply` has with `-mark`, and with `-mark` the trace holds no control
directive; so the directive comes once, before every set-address and data write,
and the set-address and data writes are the same in both cases. -/
theorem apply_undo_grouping (q : Int × Int) (diff buf : Bytes) (hne : diff ≠ []) :
    apply (recWin q) false diff buf [] =
        (none, Event.ctl "mark\nnomark" :: (apply (recWin q) true diff buf []).2) ∧
      (apply (recWin q) true diff buf []).1 = none ∧
      ∀ ev ∈ (apply (recWin q) true diff buf []).2, ev.isCtl = false := by
  obtain ⟨t, ht, hc⟩ := applyLines_recWin q (splitNewline diff).reverse buf
  have hlen : ¬ diff.length = 0 := by simpa using hne
  have e : ∀ s, (recWin q).ctl "mark\nnomark" s = (none, s ++ [Event.ctl "mark\nnomark"]) :=
    fun _ => rfl
  have h1 : apply (recWin q) true diff buf [] = (none, t) := by
    simp [apply, hlen, ht]
  have h2 : apply (recWin q) false diff buf [] = (none, Event.ctl "mark\nnomark" :: t) := by
    simp [apply, hlen, ht, e]
  rw [h1, h2]
  exact ⟨rfl, rfl, hc⟩

/-- Witness for C9: the diff text `2c2` with its content lines. -/
theorem apply_undo_grouping_witness :
    apply (recWin (0, 0)) false (diffText [hunk2c2]) "a\nX\nc\n".toList [] =
        (none, [Event.ctl "mark\nnomark", Event.addr (Address.lines 2 2),
          Event.data "X\n".toList]) ∧
      apply (recWin (0, 0)) true (diffText [hunk2c2]) "a\nX\nc\n".toList [] =
        (none, [Event.addr (Address.lines 2 2), Event.data "X\n".toList]) :=
  have h := apply_undo_grouping (0, 0) (diffText [hunk2c2]) "a\nX\nc\n".toList (by decide)
  ⟨h.1.trans (by decide), by decide⟩

/-- C10 (empty-result guard): when `new` is empty, `patchOutput` and `writeOutput`
return success and leave the state of every environment untouched: no buffer
operation, no temporary file, no diff invocation; in particular the recorded trace
is empty. -/
theorem empty_result_guard :
    (∀ (σ : Type) (S : Sys σ) (mark : Bool) (old : Bytes) (s : σ),
        patchOutput S mark old [] s = (Outcome.ok, s) ∧
          writeOutput S.toWin old [] s = (none, s)) ∧
      ∀ (q : Int × Int) (run : DiffRun) (mark : Bool) (old : Bytes),
        patchOutput (recSys q run) mark old [] [] = (Outcome.ok, []) ∧
          writeOutput (recWin q) old [] [] = (none, []) :=
  ⟨fun _ _ _ _ _ => ⟨rfl, rfl⟩, fun _ _ _ _ => ⟨rfl, rfl⟩⟩

end Acmepipe
